import Mathlib

/-!
Verification development for the core of the `RayTracer` renderer.

Modelling conventions, used consistently below:

* `f64` values are modelled as exact rationals (`ℚ`).  All the arithmetic the
  verified code paths perform on finite doubles (+, -, *, /, comparisons,
  min/max) is mirrored exactly; rounding is idealised away.
* Calls into `f64::sqrt`, `acos`/`atan2` (sphere UV), `sin`/`cos`
  (rotation angles), `ln` (medium free-path sampling) and the thread-local
  random sampler are not rational-valued; each such call site is turned into
  an explicit parameter of the embedded function, so every theorem quantifies
  over the value the call could return (and hypotheses state the defining
  property, e.g. that the sqrt parameter squares back to its argument).
* `f64::INFINITY` appears in the source only as an interval bound handed to a
  polymorphic `hit` callee (`Interval::with_bounds(0.001, f64::INFINITY)`,
  `Interval::UNIVERSE`).  Those call sites use `XInterval`, whose bounds live
  in `WithBot ℚ` / `WithTop ℚ`, so the infinite bounds are representable.
* In `AABB::hit` a zero direction component makes the Rust code compute
  `adinv = ±∞` and slab times `±∞`/`NaN`.  The IEEE-754 outcome of that axis
  (derived case by case, `f64::min`/`f64::max` ignoring NaN) is embedded
  explicitly in `slabClip`: the axis passes unchanged iff the origin is
  strictly inside the open slab, otherwise the clipped interval is empty.
* The `println!` + `process::exit` diagnostic inside `AABB::hit` is modelled
  by returning `none`; a normal boolean answer is `some b`.
* Mutation of `&mut` out-parameters (`HitRecord`, attenuation, scattered ray)
  is modelled by returning the new value next to the boolean result.
* `vec3.rs` and `ray.rs` are not part of the provided sources; `Vec3` and
  `Ray` below are modelled from the spec (§3), which pins down all the fields
  and operations the remaining files use.
-/

namespace RT

/-- Modelled from the spec: `vec3.rs` is missing from the sources.  Spec §3:
triple of f64 (x, y, z). -/
structure Vec3 where
  x : ℚ
  y : ℚ
  z : ℚ
deriving DecidableEq

namespace Vec3

/-- Modelled from the spec: the zero vector (`Vec3::zero`). -/
def zero : Vec3 := ⟨0, 0, 0⟩

/-- Modelled from the spec: the all-ones vector (`Vec3::ones`). -/
def ones : Vec3 := ⟨1, 1, 1⟩

/-- Modelled from the spec: componentwise addition. -/
def add (a b : Vec3) : Vec3 := ⟨a.x + b.x, a.y + b.y, a.z + b.z⟩

/-- Modelled from the spec: componentwise subtraction. -/
def sub (a b : Vec3) : Vec3 := ⟨a.x - b.x, a.y - b.y, a.z - b.z⟩

/-- Modelled from the spec: componentwise negation. -/
def neg (a : Vec3) : Vec3 := ⟨-a.x, -a.y, -a.z⟩

/-- Modelled from the spec: scalar multiplication. -/
def smul (q : ℚ) (a : Vec3) : Vec3 := ⟨q * a.x, q * a.y, q * a.z⟩

/-- Modelled from the spec: dot product (written `*` between vectors in the
source). -/
def dot (a b : Vec3) : ℚ := a.x * b.x + a.y * b.y + a.z * b.z

/-- Modelled from the spec: cross product. -/
def cross (a b : Vec3) : Vec3 :=
  ⟨a.y * b.z - a.z * b.y, a.z * b.x - a.x * b.z, a.x * b.y - a.y * b.x⟩

/-- Modelled from the spec: componentwise product (`component_mul`). -/
def component_mul (a b : Vec3) : Vec3 := ⟨a.x * b.x, a.y * b.y, a.z * b.z⟩

/-- Modelled from the spec: squared Euclidean length. -/
def squared_length (a : Vec3) : ℚ := a.x * a.x + a.y * a.y + a.z * a.z

/-- Modelled from the spec: `near_zero` is true when all components have
absolute value below `1e-8`. -/
def near_zero (a : Vec3) : Prop :=
  |a.x| < 1 / 100000000 ∧ |a.y| < 1 / 100000000 ∧ |a.z| < 1 / 100000000

instance (a : Vec3) : Decidable a.near_zero :=
  inferInstanceAs (Decidable (_ ∧ _ ∧ _))

/-- Modelled from the spec: indexed component access (`lp`), 0/1/2 for x/y/z. -/
def lp (a : Vec3) : ℕ → ℚ
  | 0 => a.x
  | 1 => a.y
  | _ => a.z

end Vec3

instance : Add Vec3 := ⟨Vec3.add⟩

instance : Sub Vec3 := ⟨Vec3.sub⟩

instance : Neg Vec3 := ⟨Vec3.neg⟩

instance : HMul ℚ Vec3 Vec3 := ⟨Vec3.smul⟩

instance : HMul Vec3 ℚ Vec3 := ⟨fun v q => Vec3.smul q v⟩

instance : HDiv Vec3 ℚ Vec3 := ⟨fun v q => Vec3.smul (1 / q) v⟩

@[simp]
theorem Vec3.add_mk (a b c d e f : ℚ) :
    (⟨a, b, c⟩ : Vec3) + (⟨d, e, f⟩ : Vec3) = ⟨a + d, b + e, c + f⟩ := rfl

@[simp]
theorem Vec3.sub_mk (a b c d e f : ℚ) :
    (⟨a, b, c⟩ : Vec3) - (⟨d, e, f⟩ : Vec3) = ⟨a - d, b - e, c - f⟩ := rfl

@[simp]
theorem Vec3.neg_mk (a b c : ℚ) : -(⟨a, b, c⟩ : Vec3) = ⟨-a, -b, -c⟩ := rfl

@[simp]
theorem Vec3.smul_mk (q a b c : ℚ) :
    q * (⟨a, b, c⟩ : Vec3) = (⟨q * a, q * b, q * c⟩ : Vec3) := rfl

@[simp]
theorem Vec3.mul_q_mk (q a b c : ℚ) :
    (⟨a, b, c⟩ : Vec3) * q = (⟨q * a, q * b, q * c⟩ : Vec3) := rfl

@[simp]
theorem Vec3.div_q_mk (q a b c : ℚ) :
    (⟨a, b, c⟩ : Vec3) / q = (⟨1 / q * a, 1 / q * b, 1 / q * c⟩ : Vec3) := rfl

@[simp]
theorem Vec3.dot_mk (a b c d e f : ℚ) :
    Vec3.dot ⟨a, b, c⟩ ⟨d, e, f⟩ = a * d + b * e + c * f := rfl

@[simp]
theorem Vec3.cross_mk (a b c d e f : ℚ) :
    Vec3.cross ⟨a, b, c⟩ ⟨d, e, f⟩ = ⟨b * f - c * e, c * d - a * f, a * e - b * d⟩ := rfl

@[simp]
theorem Vec3.component_mul_mk (a b c d e f : ℚ) :
    Vec3.component_mul ⟨a, b, c⟩ ⟨d, e, f⟩ = ⟨a * d, b * e, c * f⟩ := rfl

@[simp]
theorem Vec3.squared_length_mk (a b c : ℚ) :
    Vec3.squared_length ⟨a, b, c⟩ = a * a + b * b + c * c := rfl

/-- Modelled from the spec: `ray.rs` is missing from the sources.  Spec §3:
origin, direction (not necessarily unit) and a time in [0,1].  The field
names `a_origin` / `b_direction` are the ones the other files use. -/
structure Ray where
  a_origin : Vec3
  b_direction : Vec3
  time : ℚ
deriving DecidableEq

/-- Modelled from the spec: `at(t) = origin + t * direction`. -/
def Ray.at (r : Ray) (t : ℚ) : Vec3 := r.a_origin + t * r.b_direction

/-- Closed scalar range, from `interval.rs` (`Interval { min, max }`). -/
structure Interval where
  min : ℚ
  max : ℚ
deriving DecidableEq

namespace Interval

/-- From `interval.rs`: `Interval::with_bounds`. -/
def with_bounds (lo hi : ℚ) : Interval := ⟨lo, hi⟩

/-- From `interval.rs`: `Interval::with_orderless_bounds` (componentwise
`f64::min`/`f64::max` of the two arguments). -/
def with_orderless_bounds (a b : ℚ) : Interval := ⟨Min.min a b, Max.max a b⟩

/-- From `interval.rs`: `size = max - min`. -/
def size (i : Interval) : ℚ := i.max - i.min

/-- From `interval.rs`: inclusive membership `min <= x && x <= max`. -/
def contains (i : Interval) (x : ℚ) : Prop := i.min ≤ x ∧ x ≤ i.max

instance (i : Interval) (x : ℚ) : Decidable (i.contains x) :=
  inferInstanceAs (Decidable (_ ∧ _))

/-- From `interval.rs`: strict membership `min < x && x < max`. -/
def surrounds (i : Interval) (x : ℚ) : Prop := i.min < x ∧ x < i.max

instance (i : Interval) (x : ℚ) : Decidable (i.surrounds x) :=
  inferInstanceAs (Decidable (_ ∧ _))

/-- From `interval.rs`: clamp `x` into the interval. -/
def clamp (i : Interval) (x : ℚ) : ℚ :=
  if x < i.min then i.min else if x > i.max then i.max else x

/-- From `interval.rs`: symmetric widening by `delta/2` on each side. -/
def expand (i : Interval) (delta : ℚ) : Interval :=
  with_bounds (i.min - delta / 2) (i.max + delta / 2)

/-- From `interval.rs`: componentwise intersection (max of mins, min of
maxes). -/
def intersect (i j : Interval) : Interval :=
  ⟨Max.max i.min j.min, Min.min i.max j.max⟩

/-- From `interval.rs`: hull union (min of mins, max of maxes). -/
def union (i j : Interval) : Interval :=
  ⟨Min.min i.min j.min, Max.max i.max j.max⟩

end Interval

instance : HAdd Interval ℚ Interval :=
  ⟨fun i q => ⟨i.min + q, i.max + q⟩⟩

/-- Axis-aligned box, from `aabb.rs`: three intervals. -/
structure AABB where
  x : Interval
  y : Interval
  z : Interval
deriving DecidableEq

namespace AABB

/-- From `aabb.rs`: `pad_to_minimums` widens any side narrower than
`delta = 0.0001` by `expand delta` (written as a pure function; the Rust
method mutates in place). -/
def pad_to_minimums (b : AABB) : AABB :=
  let delta : ℚ := 1 / 10000
  let bx := if b.x.size < delta then b.x.expand delta else b.x
  let by' := if b.y.size < delta then b.y.expand delta else b.y
  let bz := if b.z.size < delta then b.z.expand delta else b.z
  ⟨bx, by', bz⟩

/-- From `aabb.rs`: `new_two_points` takes componentwise orderless bounds and
pads. -/
def new_two_points (a b : Vec3) : AABB :=
  pad_to_minimums
    ⟨Interval.with_orderless_bounds a.x b.x,
     Interval.with_orderless_bounds a.y b.y,
     Interval.with_orderless_bounds a.z b.z⟩

/-- From `aabb.rs`: `new_two_boxes` unions per axis and pads. -/
def new_two_boxes (a b : AABB) : AABB :=
  pad_to_minimums ⟨a.x.union b.x, a.y.union b.y, a.z.union b.z⟩

/-- From `aabb.rs`: per-axis hull union (no padding). -/
def union (a b : AABB) : AABB :=
  ⟨a.x.union b.x, a.y.union b.y, a.z.union b.z⟩

/-- From `aabb.rs`: `axis_interval` selects the interval for axis 0/1/2. -/
def axis_interval (b : AABB) (id : ℕ) : Interval :=
  if id = 0 then b.x else if id = 1 then b.y else b.z

/-- From `aabb.rs`: `longest_axis` by side length. -/
def longest_axis (b : AABB) : ℕ :=
  if b.x.size > b.y.size then
    (if b.x.size > b.z.size then 0 else 2)
  else
    (if b.y.size > b.z.size then 1 else 2)

/-- The condition guarding the diagnostic-and-abort branch of `AABB::hit`:
some side has non-positive size. -/
def degenerate (b : AABB) : Prop :=
  b.x.size ≤ 0 ∨ b.y.size ≤ 0 ∨ b.z.size ≤ 0

instance (b : AABB) : Decidable b.degenerate :=
  inferInstanceAs (Decidable (_ ∨ _ ∨ _))

end AABB

/-- One axis of the slab test of `AABB::hit`.  For `d ≠ 0` this is exactly
`ray_t.intersect(with_orderless_bounds t0 t1)` with
`t0 = (ax.min - o) * (1/d)`, `t1 = (ax.max - o) * (1/d)`.  For `d = 0` the
Rust code computes `adinv = ±∞`, slab times `±∞` (or NaN when `o` sits on a
slab boundary, which Rust `f64::min`/`f64::max` then ignore); the IEEE-754
net effect, embedded here, is that the axis passes with the candidate
interval unchanged iff `ax.min < o < ax.max`, and otherwise the clipped
interval is empty (`none`). -/
def slabClip (ax : Interval) (o d : ℚ) (cur : Interval) : Option Interval :=
  if d = 0 then
    if ax.min < o ∧ o < ax.max then some cur else none
  else
    let adinv := 1 / d
    let t0 := (ax.min - o) * adinv
    let t1 := (ax.max - o) * adinv
    some (cur.intersect (Interval.with_orderless_bounds t0 t1))

/-- The axis loop of `AABB::hit`: thread the candidate interval through the
axes, returning `some false` as soon as it becomes empty (`max <= min`), and
`none` (modelling the `println!` + `process::exit` diagnostic) when emptiness
is detected on a degenerate box. -/
def slabLoop (degen : Bool) : List (Interval × ℚ × ℚ) → Interval → Option Bool
  | [], _ => some true
  | (ax, o, d) :: rest, cur =>
    match slabClip ax o d cur with
    | none => if degen then none else some false
    | some nxt =>
      if nxt.max ≤ nxt.min then (if degen then none else some false)
      else slabLoop degen rest nxt

/-- From `aabb.rs`: the slab ray/box test `AABB::hit`.  `some b` is a normal
boolean answer; `none` models the degenerate-box diagnostic-and-abort. -/
def AABB.hit (b : AABB) (r : Ray) (ray_t : Interval) : Option Bool :=
  slabLoop (decide b.degenerate)
    [(b.x, r.a_origin.x, r.b_direction.x),
     (b.y, r.a_origin.y, r.b_direction.y),
     (b.z, r.a_origin.z, r.b_direction.z)] ray_t

section C6

/-- Claim C6 counterexample: for the disjoint intervals A = [0,1] and
B = [2,3] and x = 3/2, the hull `A.union(B)` contains x although neither A
nor B does, so the claimed equivalence
`A.union(B).contains(x) ⇔ A.contains(x) ∨ B.contains(x)` is false. -/
theorem union_contains_iff_fails :
    (Interval.union ⟨0, 1⟩ ⟨2, 3⟩).contains (3 / 2) ∧
      ¬ (Interval.contains ⟨0, 1⟩ (3 / 2)) ∧ ¬ (Interval.contains ⟨2, 3⟩ (3 / 2)) := by
  refine ⟨?_, ?_, ?_⟩ <;> simp [Interval.contains, Interval.union] <;> norm_num

/-- Claim C6 (amended): `Interval::union` is the convex hull, so membership in
either interval implies membership in the union, and membership in the union
is exactly membership in the hull bounds (the converse of the claimed
equivalence fails, see the counterexample). -/
theorem union_contains_characterization (A B : Interval) (q : ℚ) :
    (A.contains q ∨ B.contains q → (A.union B).contains q) ∧
      ((A.union B).contains q ↔ Min.min A.min B.min ≤ q ∧ q ≤ Max.max A.max B.max) := by
  constructor
  · rintro (⟨h1, h2⟩ | ⟨h1, h2⟩)
    · exact ⟨le_trans (min_le_left _ _) h1, le_trans h2 (le_max_left _ _)⟩
    · exact ⟨le_trans (min_le_right _ _) h1, le_trans h2 (le_max_right _ _)⟩
  · exact Iff.rfl

/-- Witness for the amended C6 theorem at concrete inputs. -/
theorem union_contains_characterization_witness :
    (Interval.union ⟨0, 1⟩ ⟨2, 3⟩).contains (1 / 2) :=
  (union_contains_characterization ⟨0, 1⟩ ⟨2, 3⟩ (1 / 2)).1
    (Or.inl (by constructor <;> norm_num [Interval.contains]))

end C6

section C8

/-- Helper: one padded side.  `pad_to_minimums` leaves a side of size at least
`delta` alone and widens any narrower side by `expand delta`, which adds
exactly `delta` to its size. -/
theorem pad_side_ge (i : Interval) (h : 0 ≤ i.size) :
    (1 : ℚ) / 10000 ≤ (if i.size < 1 / 10000 then i.expand (1 / 10000) else i).size := by
  split
  · have : (i.expand (1 / 10000)).size = i.size + 1 / 10000 := by
      simp [Interval.expand, Interval.size, Interval.with_bounds]; ring
    rw [this]; linarith
  · linarith [not_lt.mp (by assumption : ¬ i.size < 1 / 10000)]

theorem orderless_size_nonneg (a b : ℚ) : 0 ≤ (Interval.with_orderless_bounds a b).size := by
  simp only [Interval.with_orderless_bounds, Interval.size]
  have := le_trans (min_le_left a b) (le_max_left a b)
  linarith

theorem union_size_ge_left (i j : Interval) : i.size ≤ (i.union j).size := by
  simp only [Interval.union, Interval.size]
  have h1 : Min.min i.min j.min ≤ i.min := min_le_left _ _
  have h2 : i.max ≤ Max.max i.max j.max := le_max_left _ _
  linarith

/-- Claim C8: every `AABB` produced by `new_two_points`, or by `new_two_boxes`
from boxes whose sides all have positive size, has each side of size at least
`1e-4`; and for any box with all sides of positive size the degenerate-box
diagnostic-and-abort branch of `AABB::hit` is unreachable: `hit` returns a
plain boolean (`some` result) for every ray and interval. -/
theorem aabb_pad_invariant_and_hit_total :
    (∀ a b : Vec3,
        (1 : ℚ) / 10000 ≤ (AABB.new_two_points a b).x.size ∧
        (1 : ℚ) / 10000 ≤ (AABB.new_two_points a b).y.size ∧
        (1 : ℚ) / 10000 ≤ (AABB.new_two_points a b).z.size) ∧
    (∀ A B : AABB,
        0 < A.x.size → 0 < A.y.size → 0 < A.z.size →
        0 < B.x.size → 0 < B.y.size → 0 < B.z.size →
        (1 : ℚ) / 10000 ≤ (AABB.new_two_boxes A B).x.size ∧
        (1 : ℚ) / 10000 ≤ (AABB.new_two_boxes A B).y.size ∧
        (1 : ℚ) / 10000 ≤ (AABB.new_two_boxes A B).z.size) ∧
    (∀ b : AABB, 0 < b.x.size → 0 < b.y.size → 0 < b.z.size →
        ∀ r : Ray, ∀ I : Interval, ∃ res : Bool, AABB.hit b r I = some res) := by
  have habort : ∀ axes cur, ∃ res : Bool, slabLoop false axes cur = some res := by
    intro axes
    induction axes with
    | nil => intro cur; exact ⟨true, rfl⟩
    | cons hd tl ih =>
      intro cur
      obtain ⟨ax, o, d⟩ := hd
      simp only [slabLoop]
      match hclip : slabClip ax o d cur with
      | none => exact ⟨false, rfl⟩
      | some nxt =>
        by_cases hle : nxt.max ≤ nxt.min
        · exact ⟨false, by simp [hle]⟩
        · obtain ⟨res, hres⟩ := ih nxt
          exact ⟨res, by simp [hle, hres]⟩
  refine ⟨?_, ?_, ?_⟩
  · intro a b
    refine ⟨pad_side_ge _ (orderless_size_nonneg _ _), pad_side_ge _ (orderless_size_nonneg _ _),
      pad_side_ge _ (orderless_size_nonneg _ _)⟩
  · intro A B hx hy hz hx2 hy2 hz2
    exact ⟨pad_side_ge _ (le_of_lt (lt_of_lt_of_le hx (union_size_ge_left _ _))),
      pad_side_ge _ (le_of_lt (lt_of_lt_of_le hy (union_size_ge_left _ _))),
      pad_side_ge _ (le_of_lt (lt_of_lt_of_le hz (union_size_ge_left _ _)))⟩
  · intro b hx hy hz r I
    have hdeg : ¬ b.degenerate := by
      simp only [AABB.degenerate]
      push_neg
      exact ⟨hx, hy, hz⟩
    have : decide b.degenerate = false := decide_eq_false hdeg
    rw [AABB.hit, this]
    exact habort _ _

/-- Witness for C8 at a concrete box, ray and interval. -/
theorem aabb_pad_invariant_and_hit_total_witness :
    (1 : ℚ) / 10000 ≤ (AABB.new_two_points ⟨0, 0, 0⟩ ⟨1, 1, 1⟩).x.size ∧
      ∃ res : Bool,
        AABB.hit ⟨⟨0, 1⟩, ⟨0, 1⟩, ⟨0, 1⟩⟩ ⟨⟨2, 2, 2⟩, ⟨1, 1, 1⟩, 0⟩ ⟨0, 10⟩ = some res :=
  ⟨(aabb_pad_invariant_and_hit_total.1 ⟨0, 0, 0⟩ ⟨1, 1, 1⟩).1,
    aabb_pad_invariant_and_hit_total.2.2 ⟨⟨0, 1⟩, ⟨0, 1⟩, ⟨0, 1⟩⟩ (by norm_num [Interval.size])
      (by norm_num [Interval.size]) (by norm_num [Interval.size]) ⟨⟨2, 2, 2⟩, ⟨1, 1, 1⟩, 0⟩ ⟨0, 10⟩⟩

end C8

/-- Intersection record, from `hittable.rs`.  The shared material handle
(`Arc<dyn Material>`) is modelled as an opaque identifier `mat : ℕ`; material
behaviour is supplied separately where a claim needs it (dynamic dispatch as
lookup by identifier). -/
structure HitRecord where
  p : Vec3
  normal : Vec3
  t : ℚ
  u : ℚ
  v : ℚ
  front_face : Bool
  mat : ℕ
deriving DecidableEq

/-- From `hittable.rs`: `HitRecord::new` (zero position/normal/t/uv,
front_face true, default material — identifier 0 here stands for the
`Lambertian::from_color(ones)` the source builds). -/
def HitRecord.new : HitRecord :=
  ⟨Vec3.zero, Vec3.zero, 0, 0, 0, true, 0⟩

/-- From `hittable.rs`: `set_face_normal` (written as a pure update).
`front_face = direction · outward < 0`; the stored normal is the outward
normal, negated when the ray comes from inside. -/
def HitRecord.set_face_normal (rec : HitRecord) (r : Ray) (outward_normal : Vec3) : HitRecord :=
  { rec with
    front_face := decide (Vec3.dot r.b_direction outward_normal < 0),
    normal :=
      if Vec3.dot r.b_direction outward_normal < 0 then outward_normal else -outward_normal }

/-- Sphere, from `sphere.rs` (material handle as identifier). -/
structure Sphere where
  center : Vec3
  radius : ℚ
  mat : ℕ
  velocity : Vec3
  is_moving : Bool
  bounding_box : AABB
deriving DecidableEq

namespace Sphere

/-- From `sphere.rs`: `Sphere::new` (static). -/
def new (center : Vec3) (radius : ℚ) (mat : ℕ) : Sphere :=
  { center := center, radius := radius, mat := mat, velocity := Vec3.zero,
    is_moving := false,
    bounding_box :=
      AABB.new_two_points (center - ⟨radius, radius, radius⟩)
        (center + ⟨radius, radius, radius⟩) }

/-- From `sphere.rs`: `Sphere::new_moving`. -/
def new_moving (center1 center2 : Vec3) (radius : ℚ) (mat : ℕ) : Sphere :=
  { center := center1, radius := radius, mat := mat, velocity := center2 - center1,
    is_moving := true,
    bounding_box :=
      AABB.new_two_boxes
        (AABB.new_two_points (center1 - ⟨radius, radius, radius⟩)
          (center1 + ⟨radius, radius, radius⟩))
        (AABB.new_two_points (center2 - ⟨radius, radius, radius⟩)
          (center2 + ⟨radius, radius, radius⟩)) }

/-- From `sphere.rs`: `get_center(time) = center + velocity * time`. -/
def get_center (s : Sphere) (time : ℚ) : Vec3 :=
  s.center + s.velocity * time

/-- The `oc` local of `Sphere::hit`: `center(time) - origin`. -/
def oc (s : Sphere) (r : Ray) : Vec3 :=
  s.get_center r.time - r.a_origin

/-- The `a` local of `Sphere::hit`: squared length of the direction. -/
def aCoeff (r : Ray) : ℚ :=
  r.b_direction.squared_length

/-- The `h` local of `Sphere::hit`: `direction · oc`. -/
def hCoeff (s : Sphere) (r : Ray) : ℚ :=
  Vec3.dot r.b_direction (s.oc r)

/-- The `c` local of `Sphere::hit`: `|oc|² - r²`. -/
def cCoeff (s : Sphere) (r : Ray) : ℚ :=
  (s.oc r).squared_length - s.radius * s.radius

/-- The `discriminant` local of `Sphere::hit`: `h² - a·c`. -/
def disc (s : Sphere) (r : Ray) : ℚ :=
  s.hCoeff r * s.hCoeff r - aCoeff r * s.cCoeff r

/-- From `sphere.rs`: `Sphere::hit`, written with the Rust locals
(`oc`, `a`, `h`, `c`, `discriminant`) as the named helper definitions above.
`sq` stands for the `f64::sqrt` call on the discriminant; `uvF` stands for
`get_sphere_uv` (which uses `acos` and `atan2` and therefore is not
rational-valued).  Both are explicit parameters so theorems quantify over the
values those calls return. -/
def hit (s : Sphere) (sq : ℚ → ℚ) (uvF : Vec3 → ℚ × ℚ) (r : Ray) (ray_t : Interval)
    (rec : HitRecord) : Bool × HitRecord :=
  if s.disc r < 0 then (false, rec)
  else
    let sqrtd := sq (s.disc r)
    let root1 := (s.hCoeff r - sqrtd) / aCoeff r
    let root := if ray_t.surrounds root1 then root1 else (s.hCoeff r + sqrtd) / aCoeff r
    if ray_t.surrounds root then
      let rec1 := { rec with mat := s.mat, t := root, p := r.at root }
      let outward_normal := (rec1.p - s.center) / s.radius
      let rec2 := rec1.set_face_normal r outward_normal
      let uv := uvF outward_normal
      (true, { rec2 with u := uv.1, v := uv.2 })
    else (false, rec)

end Sphere

/-- Parallelogram, from `quad.rs` (material handle as identifier). -/
structure Quad where
  q : Vec3
  u : Vec3
  v : Vec3
  w : Vec3
  mat : ℕ
  bounding_box : AABB
  normal : Vec3
  d : ℚ
deriving DecidableEq

namespace Quad

/-- From `quad.rs`: `Quad::new`.  `len` stands for the `f64` length
`|u × v|` used by `n.unit()` (a square root, hence a parameter). -/
def new (q u v : Vec3) (mat : ℕ) (len : ℚ) : Quad :=
  let n := u.cross v
  let normal := n / len
  { q := q, u := u, v := v,
    w := n / Vec3.dot n n,
    mat := mat,
    bounding_box :=
      AABB.new_two_boxes (AABB.new_two_points q (q + u + v))
        (AABB.new_two_points (q + u) (q + v)),
    normal := normal,
    d := Vec3.dot normal q }

/-- From `quad.rs`: `is_interior` (pure version: returns the updated record
next to the boolean). -/
def is_interior (a b : ℚ) (rec : HitRecord) : Bool × HitRecord :=
  let unit_interval := Interval.with_bounds 0 1
  if ¬ unit_interval.contains a ∨ ¬ unit_interval.contains b then (false, rec)
  else (true, { rec with u := a, v := b })

/-- The `denom` local of `Quad::hit`: `direction · normal`. -/
def denom (quad : Quad) (r : Ray) : ℚ :=
  Vec3.dot r.b_direction quad.normal

/-- The `t` local of `Quad::hit`. -/
def hitT (quad : Quad) (r : Ray) : ℚ :=
  (quad.d - Vec3.dot r.a_origin quad.normal) / quad.denom r

/-- From `quad.rs`: `Quad::hit`, with the Rust locals `denom` and `t` as the
named helper definitions above. -/
def hit (quad : Quad) (r : Ray) (ray_t : Interval) (rec : HitRecord) : Bool × HitRecord :=
  if |quad.denom r| < 1 / 100000000 then (false, rec)
  else
    let t := quad.hitT r
    if ¬ ray_t.contains t then (false, rec)
    else
      let intersection := r.at t
      let planar_hitpt_vector := intersection - quad.q
      let alpha := Vec3.dot quad.w (planar_hitpt_vector.cross quad.v)
      let beta := Vec3.dot quad.w (quad.u.cross planar_hitpt_vector)
      match is_interior alpha beta rec with
      | (false, rec2) => (false, rec2)
      | (true, rec2) =>
        let rec3 := { rec2 with t := t, p := intersection, mat := quad.mat }
        (true, rec3.set_face_normal r quad.normal)

end Quad

section C3

/-- A moving sphere travelling from the origin at time 0 to (2,0,0) at
time 1, radius 1.  At the demo ray's time 1 its center is (2,0,0). -/
def movingDemoSphere : Sphere := Sphere.new_moving ⟨0, 0, 0⟩ ⟨2, 0, 0⟩ 1 0

/-- A time-1 ray aimed straight down the z axis at the moved sphere. -/
def movingDemoRay : Ray := ⟨⟨2, 0, 5⟩, ⟨0, 0, -1⟩, 1⟩

/-- The record `Sphere::hit` produces on the demo inputs (the discriminant is
exactly 1, so `sq` returning 1 matches `f64::sqrt`). -/
def movingDemoRes : Bool × HitRecord :=
  movingDemoSphere.hit (fun _ => 1) (fun _ => (0, 0)) movingDemoRay
    (Interval.with_bounds 0 10) HitRecord.new

/-- Claim C3 (code bug evaluation): on the demo inputs the hit succeeds at
t = 4 with hit point (2,0,1), but the recorded outward normal is
`(p - self.center)/r = (2,0,1)` — computed from the center at time 0 — while
the claim (and the sphere-at-ray-time geometry) requires
`(p - c(time))/r = (0,0,1)`.  The recorded normal is not even unit length,
contradicting the source's own `set_face_normal` contract ("the parameter
`outward_normal` is assumed to have unit length"). -/
theorem sphere_normal_ignores_motion :
    movingDemoRes.1 = true ∧ movingDemoRes.2.front_face = true ∧
      movingDemoRes.2.normal = ⟨2, 0, 1⟩ ∧
      (movingDemoRes.2.p - movingDemoSphere.get_center movingDemoRay.time) /
          movingDemoSphere.radius = ⟨0, 0, 1⟩ ∧
      movingDemoRes.2.normal ≠
        (movingDemoRes.2.p - movingDemoSphere.get_center movingDemoRay.time) /
          movingDemoSphere.radius := by
  have hres : movingDemoRes = (true, ⟨⟨2, 0, 1⟩, ⟨2, 0, 1⟩, 4, 0, 0, true, 0⟩) := by
    norm_num [movingDemoRes, movingDemoSphere, movingDemoRay, Sphere.hit, Sphere.new_moving,
      Sphere.get_center, Sphere.oc, Sphere.aCoeff, Sphere.hCoeff, Sphere.cCoeff, Sphere.disc,
      HitRecord.new, HitRecord.set_face_normal, Ray.at,
      Interval.with_bounds, Interval.surrounds, Vec3.zero]
  rw [hres]
  refine ⟨rfl, rfl, rfl, ?_, ?_⟩ <;>
    norm_num [movingDemoSphere, movingDemoRay, Sphere.new_moving, Sphere.get_center,
      Vec3.zero, Vec3.mk.injEq]

end C3

section C5

theorem Vec3.squared_length_pos (v : Vec3) (h : v ≠ Vec3.zero) : 0 < v.squared_length := by
  obtain ⟨a, b, c⟩ := v
  rcases lt_or_ge 0 (a * a + b * b + c * c) with hp | hp
  · simpa using hp
  · exfalso
    apply h
    have ha : a = 0 := by nlinarith
    have hb : b = 0 := by nlinarith
    have hc : c = 0 := by nlinarith
    simp [Vec3.zero, ha, hb, hc]

/-- Any root of the reduced quadratic (`a·t² - 2·h·t + c = 0`) chosen by
`Sphere::hit` satisfies the quadratic, provided `sqrtd` really is a square
root of the discriminant. -/
theorem sphere_root_solves (a h c s root : ℚ) (ha : a ≠ 0) (hs : s * s = h * h - a * c)
    (hr : root = (h - s) / a ∨ root = (h + s) / a) :
    a * (root * root) - 2 * (h * root) + c = 0 := by
  rcases hr with hr | hr <;> subst hr <;> field_simp <;> linear_combination (a ^ 2) * hs

/-- A parameter solving the reduced quadratic puts the ray point on the
sphere surface at the ray's time (exactly, in the rational model). -/
theorem sphere_quadratic_on_surface (s : Sphere) (r : Ray) (root : ℚ)
    (hq : Sphere.aCoeff r * (root * root) - 2 * (s.hCoeff r * root) + s.cCoeff r = 0) :
    (r.at root - s.get_center r.time).squared_length = s.radius * s.radius := by
  obtain ⟨⟨ox, oy, oz⟩, ⟨dx, dy, dz⟩, tm⟩ := r
  obtain ⟨⟨cx, cy, cz⟩, rad, m, ⟨vx, vy, vz⟩, mv, bb⟩ := s
  simp only [Ray.at, Sphere.get_center, Sphere.cCoeff, Sphere.hCoeff, Sphere.oc, Sphere.aCoeff,
    Vec3.smul_mk, Vec3.mul_q_mk, Vec3.add_mk, Vec3.sub_mk, Vec3.dot_mk,
    Vec3.squared_length_mk] at hq ⊢
  linear_combination hq

theorem quad_hitT_on_plane (quad : Quad) (r : Ray) (hden : quad.denom r ≠ 0) :
    Vec3.dot quad.normal (r.at (quad.hitT r)) = quad.d := by
  obtain ⟨⟨ox, oy, oz⟩, ⟨dx, dy, dz⟩, tm⟩ := r
  obtain ⟨qq, qu, qv, qw, qm, qb, ⟨nx, ny, nz⟩, qd⟩ := quad
  simp only [Quad.denom, Quad.hitT, Ray.at, Vec3.dot_mk, Vec3.add_mk, Vec3.smul_mk] at hden ⊢
  field_simp
  ring

/-- Claim C5 (amended): whenever `Sphere::hit` returns true the recorded `t`
lies strictly inside the query interval (`surrounds`), and — for a nonzero
ray direction and a `sqrtd` value that squares back to the discriminant —
the recorded point lies exactly on the sphere at the ray's time (so "within
1e-6" holds with slack).  Whenever `Quad::hit` returns true the recorded `t`
lies in the closed interval (`contains`, which is inclusive: the strict
version of the original claim fails at the endpoints, see the
counterexample), the recorded point lies exactly on the quad's plane, and the
recorded UV parameters lie in [0,1]. -/
theorem hit_t_in_range_and_on_surface :
    (∀ (s : Sphere) (sq : ℚ → ℚ) (uvF : Vec3 → ℚ × ℚ) (r : Ray) (ray_t : Interval)
        (rec rec1 : HitRecord), s.hit sq uvF r ray_t rec = (true, rec1) →
        ray_t.surrounds rec1.t ∧
          (r.b_direction ≠ Vec3.zero →
            sq (s.disc r) * sq (s.disc r) = s.disc r →
            (rec1.p - s.get_center r.time).squared_length = s.radius * s.radius)) ∧
    (∀ (quad : Quad) (r : Ray) (ray_t : Interval) (rec rec1 : HitRecord),
        quad.hit r ray_t rec = (true, rec1) →
        ray_t.contains rec1.t ∧ Vec3.dot quad.normal rec1.p = quad.d ∧
          (Interval.with_bounds 0 1).contains rec1.u ∧
          (Interval.with_bounds 0 1).contains rec1.v) := by
  constructor
  · intro s sq uvF r ray_t rec rec1 hres
    simp only [Sphere.hit] at hres
    by_cases hd : s.disc r < 0
    · simp [hd] at hres
    · simp only [if_neg hd] at hres
      by_cases hs :
          ray_t.surrounds
            (if ray_t.surrounds ((s.hCoeff r - sq (s.disc r)) / Sphere.aCoeff r) then
              (s.hCoeff r - sq (s.disc r)) / Sphere.aCoeff r
            else (s.hCoeff r + sq (s.disc r)) / Sphere.aCoeff r)
      · rw [if_pos hs] at hres
        injection hres with hfst hrec
        subst hrec
        constructor
        · simpa [HitRecord.set_face_normal] using hs
        · intro hdir hsq
          have ha : Sphere.aCoeff r ≠ 0 := ne_of_gt (Vec3.squared_length_pos _ hdir)
          have hcase :
              (if ray_t.surrounds ((s.hCoeff r - sq (s.disc r)) / Sphere.aCoeff r) then
                  (s.hCoeff r - sq (s.disc r)) / Sphere.aCoeff r
                else (s.hCoeff r + sq (s.disc r)) / Sphere.aCoeff r) =
                  (s.hCoeff r - sq (s.disc r)) / Sphere.aCoeff r ∨
              (if ray_t.surrounds ((s.hCoeff r - sq (s.disc r)) / Sphere.aCoeff r) then
                  (s.hCoeff r - sq (s.disc r)) / Sphere.aCoeff r
                else (s.hCoeff r + sq (s.disc r)) / Sphere.aCoeff r) =
                  (s.hCoeff r + sq (s.disc r)) / Sphere.aCoeff r := by
            split
            · exact Or.inl rfl
            · exact Or.inr rfl
          have hquad :=
            sphere_root_solves (Sphere.aCoeff r) (s.hCoeff r) (s.cCoeff r) (sq (s.disc r)) _ ha
              (by simpa [Sphere.disc] using hsq) hcase
          simpa [HitRecord.set_face_normal] using sphere_quadratic_on_surface s r _ hquad
      · rw [if_neg hs] at hres
        simp at hres
  · intro quad r ray_t rec rec1 hres
    simp only [Quad.hit] at hres
    split at hres
    · simp at hres
    · rename_i h1
      have hden : quad.denom r ≠ 0 := by
        intro h0
        exact h1 (by rw [h0]; norm_num)
      split at hres
      · simp at hres
      · rename_i h2
        push_neg at h2
        split at hres
        · simp at hres
        · rename_i rec2 heq
          simp only [Quad.is_interior] at heq
          split at heq
          · simp at heq
          · rename_i h3
            push_neg at h3
            injection heq with heqb heqrec
            injection hres with hfst hrec
            subst hrec
            subst heqrec
            refine ⟨?_, ?_, ?_, ?_⟩
            · simpa [HitRecord.set_face_normal] using h2
            · simpa [HitRecord.set_face_normal] using quad_hitT_on_plane quad r hden
            · simpa [HitRecord.set_face_normal] using h3.1
            · simpa [HitRecord.set_face_normal] using h3.2

/-- The unit quad in the z = 0 plane (fields exactly as `Quad::new` computes
them; `|u × v| = 1` so the length parameter is exact). -/
def demoQuad : Quad := Quad.new ⟨0, 0, 0⟩ ⟨1, 0, 0⟩ ⟨0, 1, 0⟩ 0 1

/-- A ray that meets the demo quad exactly at parameter t = 1. -/
def demoQuadRay : Ray := ⟨⟨1 / 4, 1 / 4, 1⟩, ⟨0, 0, -1⟩, 0⟩

/-- The record `Quad::hit` produces for the demo quad at t = 1. -/
def demoQuadRec : HitRecord := ⟨⟨1 / 4, 1 / 4, 0⟩, ⟨0, 0, 1⟩, 1, 1 / 4, 1 / 4, true, 0⟩

/-- Claim C5 counterexample: `Quad::hit` uses the inclusive `contains` test,
so at a ray whose plane parameter equals the interval's upper end the hit
succeeds with `t = tmax`, which does not lie strictly inside the interval —
refuting the claimed strict membership for quads. -/
theorem quad_hit_at_interval_endpoint :
    demoQuad.hit demoQuadRay (Interval.with_bounds 0 1) HitRecord.new = (true, demoQuadRec) ∧
      demoQuadRec.t = 1 ∧ ¬ (Interval.with_bounds 0 1).surrounds demoQuadRec.t := by
  refine ⟨?_, rfl, ?_⟩
  · norm_num [demoQuad, demoQuadRay, demoQuadRec, Quad.hit, Quad.new, Quad.is_interior,
      Quad.denom, Quad.hitT, HitRecord.new, HitRecord.set_face_normal, Ray.at,
      Interval.with_bounds, Interval.contains, Vec3.zero]
  · norm_num [demoQuadRec, Interval.surrounds, Interval.with_bounds]

/-- The unit sphere at the origin. -/
def witnessSphere : Sphere := Sphere.new ⟨0, 0, 0⟩ 1 0

/-- A ray down the z axis hitting the witness sphere at t = 4. -/
def witnessSphereRay : Ray := ⟨⟨0, 0, 5⟩, ⟨0, 0, -1⟩, 0⟩

/-- The record `Sphere::hit` produces on the witness inputs. -/
def witnessSphereRec : HitRecord := ⟨⟨0, 0, 1⟩, ⟨0, 0, 1⟩, 4, 0, 0, true, 0⟩

/-- Witness for the amended C5 theorem at concrete sphere and quad hits. -/
theorem hit_t_in_range_and_on_surface_witness :
    (Interval.with_bounds 0 10).surrounds witnessSphereRec.t ∧
      (witnessSphereRec.p - witnessSphere.get_center witnessSphereRay.time).squared_length =
        witnessSphere.radius * witnessSphere.radius ∧
      (Interval.with_bounds 0 1).contains demoQuadRec.t ∧
      Vec3.dot demoQuad.normal demoQuadRec.p = demoQuad.d := by
  have hsph :=
    hit_t_in_range_and_on_surface.1 witnessSphere (fun _ => 1) (fun _ => (0, 0))
      witnessSphereRay (Interval.with_bounds 0 10) HitRecord.new witnessSphereRec
      (by
        norm_num [witnessSphere, witnessSphereRay, witnessSphereRec, Sphere.hit, Sphere.new,
          Sphere.get_center, Sphere.oc, Sphere.aCoeff, Sphere.hCoeff, Sphere.cCoeff, Sphere.disc,
          HitRecord.new, HitRecord.set_face_normal, Ray.at, Interval.with_bounds,
          Interval.surrounds, Vec3.zero])
  have hq :=
    hit_t_in_range_and_on_surface.2 demoQuad demoQuadRay (Interval.with_bounds 0 1)
      HitRecord.new demoQuadRec (quad_hit_at_interval_endpoint.1)
  refine ⟨hsph.1, hsph.2 ?_ ?_, hq.1, hq.2.1⟩
  · norm_num [witnessSphereRay, Vec3.zero, Vec3.mk.injEq]
  · norm_num [witnessSphere, witnessSphereRay, Sphere.new, Sphere.disc, Sphere.oc,
      Sphere.aCoeff, Sphere.hCoeff, Sphere.cCoeff, Sphere.get_center, Vec3.zero]

end C5

section C7

theorem Vec3.add_right_eq_self_v (a b : Vec3) : a + b = a ↔ b = Vec3.zero := by
  obtain ⟨ax, ay, az⟩ := a
  obtain ⟨bx, by', bz⟩ := b
  simp only [Vec3.add_mk, Vec3.zero, Vec3.mk.injEq]
  constructor
  · rintro ⟨h1, h2, h3⟩
    refine ⟨by linarith, by linarith, by linarith⟩
  · rintro ⟨h1, h2, h3⟩
    subst h1; subst h2; subst h3
    norm_num

/-- From `material.rs`: `Lambertian::scatter`.  The texture dispatch
`self.tex.value` is the `texValue` parameter; `rand_unit` stands for the value
of `random_in_unit_sphere().unit()` drawn at the call.  The returned triple is
(return flag, attenuation, scattered ray).  Note the scatter direction is used
as computed — there is no `near_zero` fallback in the source. -/
def Lambertian.scatter (texValue : ℚ → ℚ → Vec3 → Vec3) (rand_unit : Vec3) (r_in : Ray)
    (rec : HitRecord) : Bool × Vec3 × Ray :=
  let scatter_direction := rec.normal + rand_unit
  (true, texValue rec.u rec.v rec.p, ⟨rec.p, scatter_direction, r_in.time⟩)

/-- A hit record whose normal is (1,0,0). -/
def nearZeroRec : HitRecord := { HitRecord.new with normal := ⟨1, 0, 0⟩ }

/-- A throwaway incoming ray for the scatter demo. -/
def nearZeroRay : Ray := ⟨⟨0, 0, 0⟩, ⟨0, 0, 1⟩, 0⟩

/-- Claim C7 counterexample: when the sampled unit vector is the exact
opposite of the normal the candidate direction is the zero vector, which is
`near_zero`; the source still uses it as the scattered direction, so the
scattered ray's direction is not the hit normal (it is zero). -/
theorem lambertian_near_zero_no_fallback :
    (nearZeroRec.normal + (⟨-1, 0, 0⟩ : Vec3)).near_zero ∧
      (Lambertian.scatter (fun _ _ _ => Vec3.ones) ⟨-1, 0, 0⟩ nearZeroRay
          nearZeroRec).2.2.b_direction = Vec3.zero ∧
      (Lambertian.scatter (fun _ _ _ => Vec3.ones) ⟨-1, 0, 0⟩ nearZeroRay
          nearZeroRec).2.2.b_direction ≠ nearZeroRec.normal := by
  refine ⟨?_, ?_, ?_⟩ <;>
    norm_num [nearZeroRec, nearZeroRay, Lambertian.scatter, HitRecord.new, Vec3.near_zero,
      Vec3.zero, Vec3.mk.injEq]

/-- Claim C7 (amended): `Lambertian::scatter` always scatters, with
attenuation `tex.value(u,v,p)` and direction `hit.normal + unit(random)`
unconditionally — the near-zero candidate is used as-is (no fallback), and
the direction only coincides with the hit normal when the sampled vector is
exactly zero. -/
theorem lambertian_scatter_semantics (texValue : ℚ → ℚ → Vec3 → Vec3) (rand_unit : Vec3)
    (r_in : Ray) (rec : HitRecord) :
    Lambertian.scatter texValue rand_unit r_in rec =
        (true, texValue rec.u rec.v rec.p, ⟨rec.p, rec.normal + rand_unit, r_in.time⟩) ∧
      ((Lambertian.scatter texValue rand_unit r_in rec).2.2.b_direction = rec.normal ↔
        rand_unit = Vec3.zero) := by
  refine ⟨rfl, ?_⟩
  show rec.normal + rand_unit = rec.normal ↔ rand_unit = Vec3.zero
  exact Vec3.add_right_eq_self_v rec.normal rand_unit

end C7

section C9

namespace ImageTexture

/-- From `texture.rs` (`ImageTexture::get_color`): the two sequential edge
remaps `if u <= 0.0 { u = 0.001 }` and `if u >= 1.0 { u = 0.999 }` applied to
one coordinate. -/
def remap (x : ℚ) : ℚ :=
  let x1 := if x ≤ 0 then 1 / 1000 else x
  if x1 ≥ 1 then 999 / 1000 else x1

/-- From `texture.rs`: `ImageTexture::get_color`.  The OpenCV matrix access
`img_data.at_2d(v_img as i32, u_img as i32)` is the abstract BGR byte fetch
`pix row col`; the `as i32` casts truncate toward zero, which equals the
floor because both products are nonnegative here.  The fetched bytes are
assembled as `Vec3::new(color[2], color[1], color[0]) * (1/255)`. -/
def get_color (pix : ℤ → ℤ → ℕ × ℕ × ℕ) (width height : ℕ) (u v : ℚ) : Vec3 :=
  let uu := remap u
  let vv := remap v
  let u_img := uu * (width : ℚ)
  let v_img := (1 - vv) * (height : ℚ)
  let c := pix ⌊v_img⌋ ⌊u_img⌋
  (⟨(c.2.2 : ℚ), (c.2.1 : ℚ), (c.1 : ℚ)⟩ : Vec3) * ((1 : ℚ) / 255)

/-- From `texture.rs`: the `Texture::value` impl for `ImageTexture` (cyan
marker for an empty image, then the squared-gamma adjustment). -/
def value (pix : ℤ → ℤ → ℕ × ℕ × ℕ) (width height : ℕ) (u v : ℚ) (p : Vec3) : Vec3 :=
  if width = 0 ∨ height = 0 then ⟨0, 1, 1⟩
  else
    let org := get_color pix width height u v
    ⟨org.x * org.x, org.y * org.y, org.z * org.z⟩

/-- Following the claim's words (for comparison with `get_color`): clamp u
and v into [0.001, 0.999], then fetch the nearest pixel at column
`floor(u·width)` and row `floor((1-v)·height)`. -/
def get_color_spec (pix : ℤ → ℤ → ℕ × ℕ × ℕ) (width height : ℕ) (u v : ℚ) : Vec3 :=
  let uc := Min.min (Max.max u (1 / 1000)) (999 / 1000)
  let vc := Min.min (Max.max v (1 / 1000)) (999 / 1000)
  let c := pix ⌊(1 - vc) * (height : ℚ)⌋ ⌊uc * (width : ℚ)⌋
  (⟨(c.2.2 : ℚ), (c.2.1 : ℚ), (c.1 : ℚ)⟩ : Vec3) * ((1 : ℚ) / 255)

end ImageTexture

/-- A 1000×1 image that is black in column 0 and white elsewhere. -/
def demoPix : ℤ → ℤ → ℕ × ℕ × ℕ :=
  fun _ col => if col = 0 then (0, 0, 0) else (255, 255, 255)

/-- Claim C9 counterexample: at u = 0.0005 the source leaves u unchanged
(only `u <= 0` and `u >= 1` are remapped), fetching column
`floor(0.0005·1000) = 0`, while clamping u into [0.001, 0.999] as claimed
would fetch column `floor(0.001·1000) = 1`; on an image distinguishing the
two columns the results differ. -/
theorem image_lookup_not_clamped :
    ImageTexture.get_color demoPix 1000 1 (1 / 2000) (1 / 2) = ⟨0, 0, 0⟩ ∧
      ImageTexture.get_color_spec demoPix 1000 1 (1 / 2000) (1 / 2) = ⟨1, 1, 1⟩ ∧
      ImageTexture.get_color demoPix 1000 1 (1 / 2000) (1 / 2) ≠
        ImageTexture.get_color_spec demoPix 1000 1 (1 / 2000) (1 / 2) := by
  have h1 : ImageTexture.get_color demoPix 1000 1 (1 / 2000) (1 / 2) = ⟨0, 0, 0⟩ := by
    norm_num [ImageTexture.get_color, ImageTexture.remap, demoPix]
  have h2 : ImageTexture.get_color_spec demoPix 1000 1 (1 / 2000) (1 / 2) = ⟨1, 1, 1⟩ := by
    norm_num [ImageTexture.get_color_spec, demoPix]
  refine ⟨h1, h2, ?_⟩
  rw [h1, h2]
  norm_num [Vec3.mk.injEq]

theorem remap_mem (x : ℚ) : 0 < ImageTexture.remap x ∧ ImageTexture.remap x < 1 := by
  by_cases h1 : x ≤ 0
  · simp only [ImageTexture.remap, if_pos h1]
    norm_num
  · by_cases h2 : x ≥ 1
    · simp only [ImageTexture.remap, if_neg h1, if_pos h2]
      norm_num
    · simp only [ImageTexture.remap, if_neg h1, if_neg h2]
      push_neg at h1 h2
      exact ⟨h1, h2⟩

/-- Claim C9 (amended): `ImageTexture` lookup replaces u by 0.001 only when
u ≤ 0 and by 0.999 only when u ≥ 1 (values strictly between are used as-is —
not a clamp onto [0.001, 0.999]); it then fetches the single nearest pixel at
column `floor(u·width)` and row `floor((1-v)·height)`, indices that are
always in range for a nonzero-size image.  On coordinates already inside
[0.001, 0.999] this agrees with the clamp described by the original claim. -/
theorem image_texture_lookup_semantics (pix : ℤ → ℤ → ℕ × ℕ × ℕ) (width height : ℕ)
    (hw : 1 ≤ width) (hh : 1 ≤ height) (u v : ℚ) :
    ImageTexture.get_color pix width height u v =
        (⟨((pix ⌊(1 - ImageTexture.remap v) * (height : ℚ)⌋
              ⌊ImageTexture.remap u * (width : ℚ)⌋).2.2 : ℚ),
          ((pix ⌊(1 - ImageTexture.remap v) * (height : ℚ)⌋
              ⌊ImageTexture.remap u * (width : ℚ)⌋).2.1 : ℚ),
          ((pix ⌊(1 - ImageTexture.remap v) * (height : ℚ)⌋
              ⌊ImageTexture.remap u * (width : ℚ)⌋).1 : ℚ)⟩ : Vec3) * ((1 : ℚ) / 255) ∧
      0 ≤ ⌊ImageTexture.remap u * (width : ℚ)⌋ ∧
      ⌊ImageTexture.remap u * (width : ℚ)⌋ < (width : ℤ) ∧
      0 ≤ ⌊(1 - ImageTexture.remap v) * (height : ℚ)⌋ ∧
      ⌊(1 - ImageTexture.remap v) * (height : ℚ)⌋ < (height : ℤ) ∧
      (1 / 1000 ≤ u → u ≤ 999 / 1000 → 1 / 1000 ≤ v → v ≤ 999 / 1000 →
        ImageTexture.get_color pix width height u v =
          ImageTexture.get_color_spec pix width height u v) := by
  have hwq : (0 : ℚ) < (width : ℚ) := by exact_mod_cast Nat.lt_of_lt_of_le Nat.zero_lt_one hw
  have hhq : (0 : ℚ) < (height : ℚ) := by exact_mod_cast Nat.lt_of_lt_of_le Nat.zero_lt_one hh
  have hu := remap_mem u
  have hv := remap_mem v
  refine ⟨rfl, ?_, ?_, ?_, ?_, ?_⟩
  · exact Int.floor_nonneg.mpr (mul_nonneg (le_of_lt hu.1) (le_of_lt hwq))
  · rw [Int.floor_lt]
    push_cast
    calc ImageTexture.remap u * (width : ℚ) < 1 * (width : ℚ) :=
          mul_lt_mul_of_pos_right hu.2 hwq
      _ = (width : ℚ) := one_mul _
  · exact Int.floor_nonneg.mpr (mul_nonneg (by linarith [hv.2]) (le_of_lt hhq))
  · rw [Int.floor_lt]
    push_cast
    calc (1 - ImageTexture.remap v) * (height : ℚ) < 1 * (height : ℚ) :=
          mul_lt_mul_of_pos_right (by linarith [hv.1]) hhq
      _ = (height : ℚ) := one_mul _
  · intro hu1 hu2 hv1 hv2
    have hru : ImageTexture.remap u = u := by
      simp only [ImageTexture.remap, if_neg (show ¬ u ≤ 0 by linarith)]
      rw [if_neg (show ¬ u ≥ 1 by linarith)]
    have hrv : ImageTexture.remap v = v := by
      simp only [ImageTexture.remap, if_neg (show ¬ v ≤ 0 by linarith)]
      rw [if_neg (show ¬ v ≥ 1 by linarith)]
    have hcu : Min.min (Max.max u (1 / 1000)) (999 / 1000) = u := by
      rw [max_eq_left hu1, min_eq_left hu2]
    have hcv : Min.min (Max.max v (1 / 1000)) (999 / 1000) = v := by
      rw [max_eq_left hv1, min_eq_left hv2]
    unfold ImageTexture.get_color ImageTexture.get_color_spec
    rw [hru, hrv, hcu, hcv]

/-- Witness for the amended C9 theorem at a concrete image and coordinates. -/
theorem image_texture_lookup_semantics_witness :
    0 ≤ ⌊ImageTexture.remap (1 / 2) * ((1000 : ℕ) : ℚ)⌋ ∧
      ImageTexture.get_color demoPix 1000 1 (1 / 2) (1 / 2) =
        ImageTexture.get_color_spec demoPix 1000 1 (1 / 2) (1 / 2) :=
  ⟨(image_texture_lookup_semantics demoPix 1000 1 (by norm_num) (by norm_num)
      (1 / 2) (1 / 2)).2.1,
    (image_texture_lookup_semantics demoPix 1000 1 (by norm_num) (by norm_num)
      (1 / 2) (1 / 2)).2.2.2.2.2 (by norm_num) (by norm_num) (by norm_num) (by norm_num)⟩

end C9

/-- An interval whose bounds may be the `f64` infinities the source passes to
polymorphic `hit` callees (`-∞` only in `Interval::UNIVERSE`, `+∞` in
`UNIVERSE`, `with_bounds(0.001, INFINITY)` and
`with_bounds(rec1.t + 0.0001, INFINITY)`). -/
structure XInterval where
  min : WithBot ℚ
  max : WithTop ℚ
deriving DecidableEq

/-- `Interval::UNIVERSE` = (-∞, +∞). -/
def XInterval.univ : XInterval := ⟨⊥, ⊤⟩

section C2

/-- From `camera.rs`: `Camera::ray_color`.  The polymorphic world is the
function parameter `worldHit` (receiving the `[0.001, ∞)` interval the source
builds); material dynamic dispatch is modelled by the `emitted` and `scatter`
environments indexed by the record's material identifier; `scatter` returns
(flag, attenuation, scattered ray), the values the source writes through its
`&mut` arguments. -/
def ray_color (worldHit : Ray → XInterval → HitRecord → Bool × HitRecord)
    (emitted : ℕ → ℚ → ℚ → Vec3 → Vec3)
    (scatter : ℕ → Ray → HitRecord → Bool × Vec3 × Ray)
    (background : Vec3) : Ray → ℕ → Vec3
  | _, 0 => Vec3.zero
  | r, depth + 1 =>
    let hres := worldHit r ⟨((1 : ℚ) / 1000 : ℚ), ⊤⟩ HitRecord.new
    if hres.1 = false then background
    else
      let rec1 := hres.2
      let color_from_emission := emitted rec1.mat rec1.u rec1.v rec1.p
      let sres := scatter rec1.mat r rec1
      if sres.1 = false then color_from_emission
      else
        color_from_emission +
          (sres.2.1).component_mul (ray_color worldHit emitted scatter background sres.2.2 depth)

/-- Claim C2: `ray_color` returns black at depth 0; the background when the
world is not hit on t ∈ [0.001, ∞); the emitted value alone when scatter
returns false; and emitted plus attenuation ⊙ recursive radiance of the
scattered ray at depth-1 otherwise. -/
theorem ray_color_semantics (worldHit : Ray → XInterval → HitRecord → Bool × HitRecord)
    (emitted : ℕ → ℚ → ℚ → Vec3 → Vec3)
    (scatter : ℕ → Ray → HitRecord → Bool × Vec3 × Ray) (background : Vec3) :
    (∀ r : Ray, ray_color worldHit emitted scatter background r 0 = Vec3.zero) ∧
    (∀ (r : Ray) (d : ℕ),
        (worldHit r ⟨((1 : ℚ) / 1000 : ℚ), ⊤⟩ HitRecord.new).1 = false →
        ray_color worldHit emitted scatter background r (d + 1) = background) ∧
    (∀ (r : Ray) (d : ℕ) (rec : HitRecord),
        worldHit r ⟨((1 : ℚ) / 1000 : ℚ), ⊤⟩ HitRecord.new = (true, rec) →
        (scatter rec.mat r rec).1 = false →
        ray_color worldHit emitted scatter background r (d + 1) =
          emitted rec.mat rec.u rec.v rec.p) ∧
    (∀ (r : Ray) (d : ℕ) (rec : HitRecord) (att : Vec3) (scat : Ray),
        worldHit r ⟨((1 : ℚ) / 1000 : ℚ), ⊤⟩ HitRecord.new = (true, rec) →
        scatter rec.mat r rec = (true, att, scat) →
        ray_color worldHit emitted scatter background r (d + 1) =
          emitted rec.mat rec.u rec.v rec.p +
            att.component_mul (ray_color worldHit emitted scatter background scat d)) := by
  refine ⟨fun r => rfl, ?_, ?_, ?_⟩
  · intro r d hmiss
    rw [ray_color]
    simp only [hmiss]
    norm_num
  · intro r d rec hhit hnos
    rw [ray_color]
    simp only [hhit]
    simp [hnos]
  · intro r d rec att scat hhit hsc
    rw [ray_color]
    simp only [hhit]
    simp [hsc]

/-- Witness for C2 with a concrete always-miss world and a concrete hit/scat
environment. -/
theorem ray_color_semantics_witness :
    ray_color (fun _ _ rec => (false, rec)) (fun _ _ _ _ => Vec3.zero)
        (fun _ _ _ => (true, Vec3.ones, ⟨Vec3.zero, Vec3.ones, 0⟩)) ⟨1 / 2, 1 / 2, 1⟩
        ⟨Vec3.zero, Vec3.ones, 0⟩ 3 = ⟨1 / 2, 1 / 2, 1⟩ :=
  (ray_color_semantics (fun _ _ rec => (false, rec)) (fun _ _ _ _ => Vec3.zero)
        (fun _ _ _ => (true, Vec3.ones, ⟨Vec3.zero, Vec3.ones, 0⟩))
        ⟨1 / 2, 1 / 2, 1⟩).2.1 ⟨Vec3.zero, Vec3.ones, 0⟩ 2 rfl

end C2

section C4

/-- From `camera.rs` (`initialize`, line `self.sub_pixel_cnt =
((self.sample_per_pixel as f64).sqrt() + 0.999).floor() as u32`).  Writing
`k = Nat.sqrt n` (so `k ≤ √n < k+1`), the floor equals `k` exactly when
`√n < k + 1/1000`, i.e. `10⁶·n < 10⁶·k² + 2000·k + 1`, i.e. (in integers)
`10⁶·(n - k²) ≤ 2000·k`; otherwise it equals `k + 1`.  The bridging lemma
`subPixelCnt_eq_floor` below proves this integer characterisation equal to
the real-number computation. -/
def subPixelCnt (n : ℕ) : ℕ :=
  let k := Nat.sqrt n
  if 1000000 * (n - k * k) ≤ 2000 * k then k else k + 1

/-- Following the claim's words (for comparison): `s = ⌈√sample_per_pixel⌉`. -/
def subPixelCntSpec (n : ℕ) : ℕ :=
  if Nat.sqrt n * Nat.sqrt n = n then Nat.sqrt n else Nat.sqrt n + 1

/-- The integer characterisation `subPixelCnt` agrees with the source's
real-number computation `⌊√n + 0.999⌋`. -/
theorem subPixelCnt_eq_floor (n : ℕ) :
    (subPixelCnt n : ℤ) = ⌊Real.sqrt n + 999 / 1000⌋ := by
  have hk2 : (Nat.sqrt n : ℝ) ^ 2 ≤ (n : ℝ) := by
    exact_mod_cast Nat.cast_le.mpr (Nat.sqrt_le' n)
  have hklo : (Nat.sqrt n : ℝ) ≤ Real.sqrt n :=
    (Real.le_sqrt (by positivity) (by positivity)).mpr hk2
  have hkhi : Real.sqrt n < (Nat.sqrt n : ℝ) + 1 := by
    rw [Real.sqrt_lt' (by positivity)]
    have := Nat.lt_succ_sqrt' n
    push_cast
    exact_mod_cast Nat.cast_lt.mpr this
  have hge : Nat.sqrt n * Nat.sqrt n ≤ n := by
    have := Nat.sqrt_le' n
    simpa [pow_two] using this
  simp only [subPixelCnt]
  split
  · rename_i hcase
    symm
    rw [Int.floor_eq_iff]
    constructor
    · push_cast
      linarith
    · have hlt : Real.sqrt n < (Nat.sqrt n : ℝ) + 1 / 1000 := by
        rw [Real.sqrt_lt' (by positivity)]
        have hcast : ((n - Nat.sqrt n * Nat.sqrt n : ℕ) : ℝ) =
            (n : ℝ) - (Nat.sqrt n : ℝ) * (Nat.sqrt n : ℝ) := by
          push_cast [Nat.cast_sub hge]
          ring
        have hc : (1000000 : ℝ) * ((n : ℝ) - (Nat.sqrt n : ℝ) * (Nat.sqrt n : ℝ)) ≤
            2000 * (Nat.sqrt n : ℝ) := by
          calc (1000000 : ℝ) * ((n : ℝ) - (Nat.sqrt n : ℝ) * (Nat.sqrt n : ℝ))
              = ((1000000 * (n - Nat.sqrt n * Nat.sqrt n) : ℕ) : ℝ) := by
                push_cast [hcast]; ring
            _ ≤ ((2000 * Nat.sqrt n : ℕ) : ℝ) := by exact_mod_cast hcase
            _ = 2000 * (Nat.sqrt n : ℝ) := by push_cast; ring
        nlinarith
      push_cast
      linarith
  · rename_i hcase
    push_neg at hcase
    symm
    rw [Int.floor_eq_iff]
    constructor
    · have hge2 : (Nat.sqrt n : ℝ) + 1 / 1000 ≤ Real.sqrt n := by
        rw [Real.le_sqrt (by positivity) (by positivity)]
        have hcast : ((n - Nat.sqrt n * Nat.sqrt n : ℕ) : ℝ) =
            (n : ℝ) - (Nat.sqrt n : ℝ) * (Nat.sqrt n : ℝ) := by
          push_cast [Nat.cast_sub hge]
          ring
        have hc : 2000 * (Nat.sqrt n : ℝ) + 1 ≤
            (1000000 : ℝ) * ((n : ℝ) - (Nat.sqrt n : ℝ) * (Nat.sqrt n : ℝ)) := by
          calc 2000 * (Nat.sqrt n : ℝ) + 1 = ((2000 * Nat.sqrt n + 1 : ℕ) : ℝ) := by
                push_cast; ring
            _ ≤ ((1000000 * (n - Nat.sqrt n * Nat.sqrt n) : ℕ) : ℝ) := by
                exact_mod_cast hcase
            _ = (1000000 : ℝ) * ((n : ℝ) - (Nat.sqrt n : ℝ) * (Nat.sqrt n : ℝ)) := by
                push_cast [hcast]; ring
        nlinarith
      push_cast
      linarith
    · push_cast
      linarith

/-- Camera state, from `camera.rs` (the fields the verified paths read). -/
structure Camera where
  pixel00_loc : Vec3
  pixel_delta_u : Vec3
  pixel_delta_v : Vec3
  camera_center : Vec3
  defocus_angle : ℚ
  defocus_disk_u : Vec3
  defocus_disk_v : Vec3
  sample_per_pixel : ℕ
  sub_pixel_cnt : ℕ
  enable_ssaa : Bool

namespace Camera

/-- From `camera.rs`: `get_ray_subpixel`.  `disk_sample` stands for the
`random_in_unit_disk()` draw (used only when `defocus_angle > 0`), `time` for
the `gen_range(0.0..=1.0)` draw. -/
def get_ray_subpixel (c : Camera) (i j sub_y sub_x : ℕ) (disk_sample : Vec3) (time : ℚ) :
    Ray :=
  let pixel_sample := c.pixel00_loc +
    (((i : ℚ) + ((sub_x * 2 + 1 : ℕ) : ℚ) / (c.sub_pixel_cnt : ℚ) / 2 - 1 / 2) *
      c.pixel_delta_u) +
    (((j : ℚ) + ((sub_y * 2 + 1 : ℕ) : ℚ) / (c.sub_pixel_cnt : ℚ) / 2 - 1 / 2) *
      c.pixel_delta_v)
  let ray_origin :=
    if c.defocus_angle ≤ 0 then c.camera_center
    else c.camera_center + disk_sample.x * c.defocus_disk_u + disk_sample.y * c.defocus_disk_v
  ⟨ray_origin, pixel_sample - ray_origin, time⟩

/-- The multiset of radiance samples one pixel accumulates under SSAA: the
`sub_y`/`sub_x` double loop of `render_sub`, with the integrator abstracted
as `radiance` and the per-sample random draws as the `disk`/`times`
environments. -/
def pixelSamplesSSAA (c : Camera) (radiance : Ray → Vec3) (i j : ℕ)
    (disk : ℕ × ℕ → Vec3) (times : ℕ × ℕ → ℚ) : List Vec3 :=
  (List.range c.sub_pixel_cnt).flatMap fun sub_y =>
    (List.range c.sub_pixel_cnt).map fun sub_x =>
      radiance (c.get_ray_subpixel i j sub_y sub_x (disk (sub_y, sub_x)) (times (sub_y, sub_x)))

end Camera

/-- Sum of a list of radiance samples (the `+=` accumulation into the tile
buffer). -/
def vecSum : List Vec3 → Vec3 :=
  List.foldr (· + ·) Vec3.zero

/-- From `camera.rs` (`render_sub`): the value written for one pixel — the
accumulated sum divided by the configured `sample_per_pixel`. -/
def Camera.pixelValueSSAA (c : Camera) (radiance : Ray → Vec3) (i j : ℕ)
    (disk : ℕ × ℕ → Vec3) (times : ℕ × ℕ → ℚ) : Vec3 :=
  vecSum (c.pixelSamplesSSAA radiance i j disk times) / (c.sample_per_pixel : ℚ)

theorem pixelSamplesSSAA_length (c : Camera) (radiance : Ray → Vec3) (i j : ℕ)
    (disk : ℕ × ℕ → Vec3) (times : ℕ × ℕ → ℚ) :
    (c.pixelSamplesSSAA radiance i j disk times).length = c.sub_pixel_cnt * c.sub_pixel_cnt := by
  simp [Camera.pixelSamplesSSAA, List.length_flatMap, Function.comp_def]

/-- Claim C4 (amended): under SSAA every pixel accumulates exactly `s·s`
radiance samples where `s = ⌊√sample_per_pixel + 0.999⌋` is the value
`initialize` stores in `sub_pixel_cnt` (this equals `⌈√spp⌉` whenever the
fractional part of `√spp` is zero or at least 0.001, but not always — see the
counterexample at spp = 251002); the (sub_y, sub_x) sample's sub-pixel center
offset is `((2·sub_x+1)/(2s) - 0.5, (2·sub_y+1)/(2s) - 0.5)`; and the
accumulated sum is divided by the configured `sample_per_pixel`, not by
`s·s`. -/
theorem ssaa_samples_and_divisor (c : Camera) (radiance : Ray → Vec3) (i j : ℕ)
    (disk : ℕ × ℕ → Vec3) (times : ℕ × ℕ → ℚ)
    (hsvalid : c.sub_pixel_cnt = subPixelCnt c.sample_per_pixel) :
    (c.pixelSamplesSSAA radiance i j disk times).length =
        subPixelCnt c.sample_per_pixel * subPixelCnt c.sample_per_pixel ∧
      (∀ (sub_y sub_x : ℕ) (ds : Vec3) (tm : ℚ),
        (c.get_ray_subpixel i j sub_y sub_x ds tm).b_direction =
          c.pixel00_loc +
              (((i : ℚ) + (2 * (sub_x : ℚ) + 1) / (2 * (c.sub_pixel_cnt : ℚ)) - 1 / 2) *
                c.pixel_delta_u) +
              (((j : ℚ) + (2 * (sub_y : ℚ) + 1) / (2 * (c.sub_pixel_cnt : ℚ)) - 1 / 2) *
                c.pixel_delta_v) -
            (c.get_ray_subpixel i j sub_y sub_x ds tm).a_origin) ∧
      c.pixelValueSSAA radiance i j disk times =
        vecSum (c.pixelSamplesSSAA radiance i j disk times) / (c.sample_per_pixel : ℚ) := by
  refine ⟨(pixelSamplesSSAA_length c radiance i j disk times).trans (by rw [hsvalid]), ?_, rfl⟩
  intro sub_y sub_x ds tm
  have hx : ((sub_x * 2 + 1 : ℕ) : ℚ) / (c.sub_pixel_cnt : ℚ) / 2 =
      (2 * (sub_x : ℚ) + 1) / (2 * (c.sub_pixel_cnt : ℚ)) := by
    push_cast
    ring
  have hy : ((sub_y * 2 + 1 : ℕ) : ℚ) / (c.sub_pixel_cnt : ℚ) / 2 =
      (2 * (sub_y : ℚ) + 1) / (2 * (c.sub_pixel_cnt : ℚ)) := by
    push_cast
    ring
  dsimp only [Camera.get_ray_subpixel]
  rw [hx, hy]

/-- Camera configured as `initialize` would for spp = 4 (a perfect square, so
s = 2). -/
def camWitness : Camera :=
  ⟨Vec3.zero, Vec3.zero, Vec3.zero, Vec3.zero, 0, Vec3.zero, Vec3.zero, 4, subPixelCnt 4, true⟩

/-- Witness for the amended C4 theorem at a concrete camera. -/
theorem ssaa_samples_and_divisor_witness :
    (camWitness.pixelSamplesSSAA (fun _ => Vec3.ones) 0 0 (fun _ => Vec3.zero)
        (fun _ => 0)).length = subPixelCnt 4 * subPixelCnt 4 :=
  (ssaa_samples_and_divisor camWitness (fun _ => Vec3.ones) 0 0 (fun _ => Vec3.zero)
    (fun _ => 0) rfl).1

/-- Camera configured as `initialize` would for spp = 251002. -/
def camDemo251002 : Camera :=
  ⟨Vec3.zero, Vec3.zero, Vec3.zero, Vec3.zero, 0, Vec3.zero, Vec3.zero, 251002,
    subPixelCnt 251002, true⟩

/-- Claim C4 counterexample: at `sample_per_pixel = 251002` the source
computes `s = ⌊√251002 + 0.999⌋ = 501` (since `√251002 ≈ 501.000998 <
501.001`), not `⌈√251002⌉ = 502`; the pixel then accumulates `501² = 251001`
samples, not the `502²` the claimed formula predicts. -/
theorem ssaa_subpixel_not_ceil :
    subPixelCnt 251002 = 501 ∧ subPixelCntSpec 251002 = 502 ∧
      (camDemo251002.pixelSamplesSSAA (fun _ => Vec3.zero) 0 0 (fun _ => Vec3.zero)
          (fun _ => 0)).length = 501 * 501 ∧
      501 * 501 ≠ subPixelCntSpec 251002 * subPixelCntSpec 251002 := by
  have hsq : Nat.sqrt 251002 = 501 := by
    have h1 : 501 ≤ Nat.sqrt 251002 := Nat.le_sqrt.mpr (by norm_num)
    have h2 : Nat.sqrt 251002 < 502 := Nat.sqrt_lt.mpr (by norm_num)
    omega
  have hcode : subPixelCnt 251002 = 501 := by
    simp only [subPixelCnt, hsq]
    norm_num
  have hspec : subPixelCntSpec 251002 = 502 := by
    simp only [subPixelCntSpec, hsq]
    norm_num
  refine ⟨hcode, hspec, ?_, ?_⟩
  · exact (pixelSamplesSSAA_length camDemo251002 _ 0 0 _ _).trans (by rw [show
      camDemo251002.sub_pixel_cnt = subPixelCnt 251002 from rfl, hcode])
  · rw [hspec]
    norm_num

end C4

/-- A leaf hittable as the aggregates see it: the dynamic `hit` method of a
shared `Arc<dyn Hittable>` plus its `bounding_box()`.  Mutation of the
`&mut HitRecord` argument is modelled by the returned record. -/
structure Leaf where
  hit : Ray → Interval → HitRecord → Bool × HitRecord
  bbox : AABB

/-- From `hittable.rs` (`HittableList::hit`): the loop state is
`(hit_anything, closest_so_far, temp_rec, rec)`; each object is queried on
`[ray_t.min, closest_so_far]` with the scratch `temp_rec`, and on success the
state takes the new `t` as `closest_so_far` and copies `temp_rec` into
`rec`. -/
def scanAux (r : Ray) (lo : ℚ) :
    List Leaf → Bool × ℚ × HitRecord × HitRecord → Bool × ℚ × HitRecord × HitRecord
  | [], st => st
  | L :: ls, (hit_anything, closest_so_far, temp_rec, rec) =>
    match L.hit r (Interval.with_bounds lo closest_so_far) temp_rec with
    | (true, temp2) => scanAux r lo ls (true, temp2.t, temp2, temp2)
    | (false, temp2) => scanAux r lo ls (hit_anything, closest_so_far, temp2, rec)

/-- From `hittable.rs`: `HittableList::hit` over its object list. -/
def HittableList.hit (objects : List Leaf) (r : Ray) (ray_t : Interval) (rec : HitRecord) :
    Bool × HitRecord :=
  let st := scanAux r ray_t.min objects (false, ray_t.max, HitRecord.new, rec)
  (st.1, st.2.2.2)

/-- The shape of a built BVH: leaves are shared hittables, internal nodes
carry the stored bounding box (`BVHNode { left, right, bounding_box }`). -/
inductive BVHTree where
  | leaf (l : Leaf)
  | node (left right : BVHTree) (bounding_box : AABB)

/-- From `bvh.rs`: `BVHNode::hit`.  `none` propagates the abort of the
degenerate-box diagnostic inside `AABB::hit`; otherwise the node tests its
box, queries the left child on the full interval and the right child on
`[ray_t.min, hit_left ? rec.t : ray_t.max]`. -/
def BVHNode.hit : BVHTree → Ray → Interval → HitRecord → Option (Bool × HitRecord)
  | .leaf l, r, ray_t, rec => some (l.hit r ray_t rec)
  | .node left right box, r, ray_t, rec =>
    match AABB.hit box r ray_t with
    | none => none
    | some false => some (false, rec)
    | some true =>
      match BVHNode.hit left r ray_t rec with
      | none => none
      | some (hit_left, rec1) =>
        match
          BVHNode.hit right r
            (Interval.with_bounds ray_t.min (if hit_left then rec1.t else ray_t.max)) rec1
        with
        | none => none
        | some (hit_right, rec2) => some (hit_left || hit_right, rec2)

/-- The leaves of a BVH tree, left to right. -/
def BVHTree.leaves : BVHTree → List Leaf
  | .leaf l => [l]
  | .node left right _ => left.leaves ++ right.leaves

/-- The accumulated box of `BVHNode::init_from_list`: the fold of
`AABB::union` over the children's boxes.  The source folds from
`AABB::EMPTY`, whose ±∞ interval bounds make it the unit of the hull union
in `f64`; over a nonempty list that fold equals the fold from the first box,
which is the form used here (the source recursion never reaches an empty
list — on one it would recurse forever). -/
def unionBoxes : List Leaf → AABB
  | [] => ⟨⟨0, 0⟩, ⟨0, 0⟩, ⟨0, 0⟩⟩
  | l :: ls => ls.foldl (fun acc L => acc.union L.bbox) l.bbox

/-- From `bvh.rs` (`box_compare`): order two hittables by the minimum of
their bounding box on the chosen axis. -/
def boxCompareLe (axis : ℕ) (a b : Leaf) : Bool :=
  decide ((a.bbox.axis_interval axis).min ≤ (b.bbox.axis_interval axis).min)

/-- From `bvh.rs`: `BVHNode::new` / `init_from_list`.  A single child is
duplicated into both slots; two children split as given; otherwise the span
is sorted by `box_compare` on the longest axis of the accumulated box and
split at `len / 2`.  (`sort_by` is a comparison sort; `List.mergeSort` with
the same ordering produces the same sorted order up to equal keys, which no
theorem below depends on.)  The empty case is unreachable from `new` on a
nonempty scene; the source would recurse forever on it, here it returns an
inert leaf. -/
def buildBVH : List Leaf → BVHTree
  | [] => .leaf ⟨fun _ _ rec => (false, rec), ⟨⟨0, 0⟩, ⟨0, 0⟩, ⟨0, 0⟩⟩⟩
  | [a] => .node (.leaf a) (.leaf a) (unionBoxes [a])
  | [a, b] => .node (.leaf a) (.leaf b) (unionBoxes [a, b])
  | a :: b :: c :: rest =>
    let l := a :: b :: c :: rest
    let box := unionBoxes l
    let sorted := l.mergeSort (boxCompareLe box.longest_axis)
    let mid := l.length / 2
    .node (buildBVH (sorted.take mid)) (buildBVH (sorted.drop mid)) box
termination_by l => l.length
decreasing_by
  all_goals
    simp only [List.length_take, List.length_drop, List.length_mergeSort, List.length_cons]
    omega

/-- From `hittable.rs`: `Translate::hit` (the child's dynamic `hit` is the
function parameter). -/
def Translate.hit (objectHit : Ray → Interval → HitRecord → Bool × HitRecord) (offset : Vec3)
    (r : Ray) (t_range : Interval) (rec : HitRecord) : Bool × HitRecord :=
  let offset_r : Ray := ⟨r.a_origin - offset, r.b_direction, r.time⟩
  match objectHit offset_r t_range rec with
  | (false, rec1) => (false, rec1)
  | (true, rec1) => (true, { rec1 with p := rec1.p + offset })

/-- From `hittable.rs`: `RotateY::hit`.  `sin_theta`/`cos_theta` are the
precomputed `f64::sin`/`f64::cos` of the angle (parameters, since they are
not rational-valued). -/
def RotateY.hit (objectHit : Ray → Interval → HitRecord → Bool × HitRecord)
    (sin_theta cos_theta : ℚ) (r : Ray) (t_range : Interval) (rec : HitRecord) :
    Bool × HitRecord :=
  let origin : Vec3 :=
    ⟨cos_theta * r.a_origin.x - sin_theta * r.a_origin.z, r.a_origin.y,
      sin_theta * r.a_origin.x + cos_theta * r.a_origin.z⟩
  let direction : Vec3 :=
    ⟨cos_theta * r.b_direction.x - sin_theta * r.b_direction.z, r.b_direction.y,
      sin_theta * r.b_direction.x + cos_theta * r.b_direction.z⟩
  let rotated_r : Ray := ⟨origin, direction, r.time⟩
  match objectHit rotated_r t_range rec with
  | (false, rec1) => (false, rec1)
  | (true, rec1) =>
    (true,
      { rec1 with
        p := ⟨cos_theta * rec1.p.x + sin_theta * rec1.p.z, rec1.p.y,
          -sin_theta * rec1.p.x + cos_theta * rec1.p.z⟩,
        normal := ⟨cos_theta * rec1.normal.x + sin_theta * rec1.normal.z, rec1.normal.y,
          -sin_theta * rec1.normal.x + cos_theta * rec1.normal.z⟩ })

/-- From `hittable.rs`: `ConstantMedium::hit`.  The boundary's dynamic `hit`
is a parameter taking the extended intervals the source builds (`UNIVERSE`
and `[rec1.t + 1e-4, ∞)`); `ray_length` stands for `r.b_direction.length()`
(a square root) and `lnU` for `random_f64_0_1().ln()`; `phase` is the
identifier of the `Isotropic` phase-function material. -/
def ConstantMedium.hit (boundaryHit : Ray → XInterval → HitRecord → Bool × HitRecord)
    (neg_inv_density ray_length lnU : ℚ) (phase : ℕ) (r : Ray) (ray_t : Interval)
    (rec : HitRecord) : Bool × HitRecord :=
  match boundaryHit r XInterval.univ HitRecord.new with
  | (false, _) => (false, rec)
  | (true, rec1) =>
    match boundaryHit r ⟨((rec1.t + 1 / 10000 : ℚ) : WithBot ℚ), ⊤⟩ HitRecord.new with
    | (false, _) => (false, rec)
    | (true, rec2) =>
      let t1 := if rec1.t < ray_t.min then ray_t.min else rec1.t
      let t2 := if rec2.t > ray_t.max then ray_t.max else rec2.t
      if t1 ≥ t2 then (false, rec)
      else
        let t1 := if t1 < 0 then 0 else t1
        let distance_inside_boundary := (t2 - t1) * ray_length
        let hit_distance := neg_inv_density * lnU
        if hit_distance > distance_inside_boundary then (false, rec)
        else
          let tHit := t1 + hit_distance / ray_length
          (true,
            { rec with
              t := tHit
              p := r.at tHit
              normal := ⟨1, 0, 0⟩
              front_face := true
              mat := phase })

section C10

/-- The frame property of a leaf's `hit`: a miss leaves the record exactly as
it was. -/
def LeafFrame (L : Leaf) : Prop :=
  ∀ (r : Ray) (I : Interval) (rec rec1 : HitRecord), L.hit r I rec = (false, rec1) → rec1 = rec

theorem scanAux_flag_mono (r : Ray) (lo : ℚ) (ls : List Leaf) :
    ∀ (closest : ℚ) (temp rec : HitRecord),
      (scanAux r lo ls (true, closest, temp, rec)).1 = true := by
  induction ls with
  | nil => intro closest temp rec; rfl
  | cons L tl ih =>
    intro closest temp rec
    simp only [scanAux]
    rcases hhit : L.hit r (Interval.with_bounds lo closest) temp with ⟨b, temp2⟩
    cases b
    · exact ih _ _ _
    · exact ih _ _ _

theorem scanAux_rec_frame (r : Ray) (lo : ℚ) (ls : List Leaf) :
    ∀ (flag : Bool) (closest : ℚ) (temp rec : HitRecord),
      (scanAux r lo ls (flag, closest, temp, rec)).1 = false →
      (scanAux r lo ls (flag, closest, temp, rec)).2.2.2 = rec := by
  induction ls with
  | nil => intro flag closest temp rec _; rfl
  | cons L tl ih =>
    intro flag closest temp rec h
    simp only [scanAux] at h ⊢
    rcases hhit : L.hit r (Interval.with_bounds lo closest) temp with ⟨b, temp2⟩
    rw [hhit] at h
    cases b
    · exact ih _ _ _ _ h
    · have hm := scanAux_flag_mono r lo tl temp2.t temp2 temp2
      simp only [hm] at h
      cases h

/-- Claim C10: for each hittable variant — `Sphere`, `Quad`, `HittableList`,
`BVHNode`, `Translate`, `RotateY`, `ConstantMedium` — a `hit` that returns
false leaves the caller's `HitRecord` exactly unchanged.  For the wrappers
(`Translate`, `RotateY`) and for `BVHNode` the property is relative to the
same property of the wrapped child / leaf hittables, which is how the
aggregates use it; `HittableList` satisfies it unconditionally because its
objects only ever mutate the private `temp_rec` scratch. -/
theorem hit_false_leaves_record_unchanged :
    (∀ (s : Sphere) (sq : ℚ → ℚ) (uvF : Vec3 → ℚ × ℚ) (r : Ray) (ray_t : Interval)
        (rec rec1 : HitRecord), s.hit sq uvF r ray_t rec = (false, rec1) → rec1 = rec) ∧
    (∀ (quad : Quad) (r : Ray) (ray_t : Interval) (rec rec1 : HitRecord),
        quad.hit r ray_t rec = (false, rec1) → rec1 = rec) ∧
    (∀ (objects : List Leaf) (r : Ray) (ray_t : Interval) (rec : HitRecord),
        (HittableList.hit objects r ray_t rec).1 = false →
        (HittableList.hit objects r ray_t rec).2 = rec) ∧
    (∀ T : BVHTree, (∀ L ∈ T.leaves, LeafFrame L) →
        ∀ (r : Ray) (ray_t : Interval) (rec rec1 : HitRecord),
          BVHNode.hit T r ray_t rec = some (false, rec1) → rec1 = rec) ∧
    (∀ (objectHit : Ray → Interval → HitRecord → Bool × HitRecord) (offset : Vec3),
        (∀ r I rec rec1, objectHit r I rec = (false, rec1) → rec1 = rec) →
        ∀ (r : Ray) (t_range : Interval) (rec rec1 : HitRecord),
          Translate.hit objectHit offset r t_range rec = (false, rec1) → rec1 = rec) ∧
    (∀ (objectHit : Ray → Interval → HitRecord → Bool × HitRecord) (sin_theta cos_theta : ℚ),
        (∀ r I rec rec1, objectHit r I rec = (false, rec1) → rec1 = rec) →
        ∀ (r : Ray) (t_range : Interval) (rec rec1 : HitRecord),
          RotateY.hit objectHit sin_theta cos_theta r t_range rec = (false, rec1) → rec1 = rec) ∧
    (∀ (boundaryHit : Ray → XInterval → HitRecord → Bool × HitRecord)
        (neg_inv_density ray_length lnU : ℚ) (phase : ℕ) (r : Ray) (ray_t : Interval)
        (rec rec1 : HitRecord),
        ConstantMedium.hit boundaryHit neg_inv_density ray_length lnU phase r ray_t rec =
          (false, rec1) → rec1 = rec) := by
  refine ⟨?_, ?_, ?_, ?_, ?_, ?_, ?_⟩
  · intro s sq uvF r ray_t rec rec1 h
    simp only [Sphere.hit] at h
    split at h
    · injection h with h1 h2
      exact h2.symm
    · split at h
      · simp at h
      · split at h
        · simp at h
        · injection h with h1 h2
          exact h2.symm
  · intro quad r ray_t rec rec1 h
    simp only [Quad.hit] at h
    split at h
    · injection h with h1 h2
      exact h2.symm
    · split at h
      · injection h with h1 h2
        exact h2.symm
      · split at h
        · rename_i rec2 heq
          simp only [Quad.is_interior] at heq
          split at heq
          · injection heq with heqb heqrec
            injection h with h1 h2
            rw [← h2, ← heqrec]
          · simp at heq
        · simp at h
  · intro objects r ray_t rec h
    exact scanAux_rec_frame r ray_t.min objects false ray_t.max HitRecord.new rec h
  · intro T
    induction T with
    | leaf l =>
      intro hall r ray_t rec rec1 h
      injection h with h1
      exact hall l (by simp [BVHTree.leaves]) r ray_t rec rec1 h1
    | node left right box ihl ihr =>
      intro hall r ray_t rec rec1 h
      have hallL : ∀ L ∈ left.leaves, LeafFrame L := fun L hL =>
        hall L (by simp [BVHTree.leaves, hL])
      have hallR : ∀ L ∈ right.leaves, LeafFrame L := fun L hL =>
        hall L (by simp [BVHTree.leaves, hL])
      simp only [BVHNode.hit] at h
      rcases hbox : AABB.hit box r ray_t with _ | b
      · simp only [hbox] at h
        cases h
      · cases b
        · simp only [hbox] at h
          injection h with h1
          injection h1 with h2 h3
          exact h3.symm
        · simp only [hbox] at h
          rcases hleft : BVHNode.hit left r ray_t rec with _ | ⟨bl, recl⟩
          · simp only [hleft] at h
            cases h
          · simp only [hleft] at h
            rcases hright :
                BVHNode.hit right r
                  (Interval.with_bounds ray_t.min (if bl then recl.t else ray_t.max)) recl with
                _ | ⟨br, recr⟩
            · simp only [hright] at h
              cases h
            · simp only [hright] at h
              injection h with h1
              injection h1 with h2 h3
              have hor := Bool.or_eq_false_iff.mp h2
              have hrecl : recl = rec := ihl hallL r ray_t rec recl (by rw [hleft, hor.1])
              have hrecr : recr = recl :=
                ihr hallR r _ recl recr (by rw [hright, hor.2])
              rw [← h3, hrecr, hrecl]
  · intro objectHit offset hchild r t_range rec rec1 h
    simp only [Translate.hit] at h
    rcases hc : objectHit ⟨r.a_origin - offset, r.b_direction, r.time⟩ t_range rec with ⟨b, recc⟩
    rw [hc] at h
    cases b
    · injection h with h1 h2
      rw [← h2]
      exact hchild _ _ _ _ hc
    · simp at h
  · intro objectHit sin_theta cos_theta hchild r t_range rec rec1 h
    simp only [RotateY.hit] at h
    rcases hc :
        objectHit
          ⟨⟨cos_theta * r.a_origin.x - sin_theta * r.a_origin.z, r.a_origin.y,
            sin_theta * r.a_origin.x + cos_theta * r.a_origin.z⟩,
           ⟨cos_theta * r.b_direction.x - sin_theta * r.b_direction.z, r.b_direction.y,
            sin_theta * r.b_direction.x + cos_theta * r.b_direction.z⟩, r.time⟩
          t_range rec with ⟨b, recc⟩
    rw [hc] at h
    cases b
    · injection h with h1 h2
      rw [← h2]
      exact hchild _ _ _ _ hc
    · simp at h
  · intro boundaryHit neg_inv_density ray_length lnU phase r ray_t rec rec1 h
    simp only [ConstantMedium.hit] at h
    rcases hb1 : boundaryHit r XInterval.univ HitRecord.new with ⟨b1, brec1⟩
    cases b1
    · simp only [hb1] at h
      injection h with h1 h2
      exact h2.symm
    · simp only [hb1] at h
      rcases hb2 :
          boundaryHit r ⟨((brec1.t + 1 / 10000 : ℚ) : WithBot ℚ), ⊤⟩ HitRecord.new with
          ⟨b2, brec2⟩
      simp only [hb2] at h
      cases b2
      · injection h with h1 h2
        exact h2.symm
      · repeat' split at h
        all_goals
          first
          | (injection h with h1 h2; exact h2.symm)
          | simp at h

/-- Witness for C10: each variant applied at a concrete miss. -/
theorem hit_false_leaves_record_unchanged_witness :
    (HitRecord.new : HitRecord) = HitRecord.new ∧ demoQuadRec = demoQuadRec := by
  constructor
  · exact
      hit_false_leaves_record_unchanged.1 witnessSphere (fun _ => 1) (fun _ => (0, 0))
        witnessSphereRay (Interval.with_bounds 0 1) HitRecord.new HitRecord.new
        (by
          norm_num [witnessSphere, witnessSphereRay, Sphere.hit, Sphere.new, Sphere.get_center,
            Sphere.oc, Sphere.aCoeff, Sphere.hCoeff, Sphere.cCoeff, Sphere.disc, HitRecord.new,
            Interval.with_bounds, Interval.surrounds, Vec3.zero])
  · exact
      hit_false_leaves_record_unchanged.2.2.2.2.2.2 (fun _ _ rec => (false, rec)) (-2) 1 0 7
        demoQuadRay (Interval.with_bounds 0 1) demoQuadRec demoQuadRec rfl

end C10

section C1

/-- A deterministic candidate-root model of a leaf hittable's `hit` method,
abstracting `Sphere::hit` and `Quad::hit` (and instances wrapping them):
for a given ray the leaf has a finite list of candidate parameters, a record
it produces at each candidate, and a membership style — `Sphere::hit` checks
roots with the strict `surrounds`, `Quad::hit` with the inclusive
`contains`. -/
structure LeafModel where
  cands : Ray → List ℚ
  recAt : Ray → ℚ → HitRecord
  strict : Bool

/-- Candidate membership in a query interval, by the candidate's style. -/
def memB (strict : Bool) (t : ℚ) (I : Interval) : Prop :=
  if strict then I.min < t ∧ t < I.max else I.min ≤ t ∧ t ≤ I.max

instance (strict : Bool) (t : ℚ) (I : Interval) : Decidable (memB strict t I) := by
  unfold memB
  split <;> infer_instance

/-- The smallest member of a style-tagged candidate list inside `I`. -/
def bestln (I : Interval) : List (Bool × ℚ) → Option ℚ
  | [] => none
  | c :: cs =>
    let rest := bestln I cs
    if memB c.1 c.2 I then
      match rest with
      | none => some c.2
      | some m => if m < c.2 then some m else some c.2
    else rest

/-- The smallest candidate of one leaf inside `I` (same recursion, over the
leaf's untagged candidate list). -/
def minMem (strict : Bool) (I : Interval) : List ℚ → Option ℚ
  | [] => none
  | t :: ts =>
    let rest := minMem strict I ts
    if memB strict t I then
      match rest with
      | none => some t
      | some m => if m < t then some m else some t
    else rest

/-- The `hit` behaviour the model prescribes: a miss returns the record
unchanged, a hit returns the record at the smallest in-interval candidate. -/
def LeafModel.runHit (m : LeafModel) (r : Ray) (I : Interval) (rec : HitRecord) :
    Bool × HitRecord :=
  match minMem m.strict I (m.cands r) with
  | none => (false, rec)
  | some t => (true, m.recAt r t)

/-- A leaf is faithfully described by a model: its `hit` equals the model's,
the produced record carries the candidate as its `t`, any hit within an
interval implies the leaf's own bounding box passes the slab test on that
interval, and the bounding box is nondegenerate. -/
structure Matches (L : Leaf) (m : LeafModel) : Prop where
  hit_eq : ∀ r I rec, L.hit r I rec = m.runHit r I rec
  recAt_t : ∀ r t, t ∈ m.cands r → (m.recAt r t).t = t
  bbox_hit : ∀ r I, (minMem m.strict I (m.cands r)).isSome → L.bbox.hit r I = some true
  pos_x : 0 < L.bbox.x.size
  pos_y : 0 < L.bbox.y.size
  pos_z : 0 < L.bbox.z.size

theorem bestln_none_iff (I : Interval) (cs : List (Bool × ℚ)) :
    bestln I cs = none ↔ ∀ c ∈ cs, ¬ memB c.1 c.2 I := by
  induction cs with
  | nil => simp [bestln]
  | cons c cs ih =>
    simp only [bestln]
    by_cases hc : memB c.1 c.2 I
    · rw [if_pos hc]
      constructor
      · intro h
        rcases hbest : bestln I cs with _ | m <;> simp only [hbest] at h
        · cases h
        · by_cases hlt : m < c.2
          · rw [if_pos hlt] at h
            cases h
          · rw [if_neg hlt] at h
            cases h
      · intro h
        exact absurd hc (h c (by simp))
    · rw [if_neg hc, ih]
      constructor
      · intro h d hd
        rcases List.mem_cons.mp hd with rfl | hd
        · exact hc
        · exact h d hd
      · intro h d hd
        exact h d (by simp [hd])

theorem bestln_some_spec (I : Interval) (cs : List (Bool × ℚ)) (m : ℚ)
    (h : bestln I cs = some m) :
    (∃ c ∈ cs, memB c.1 c.2 I ∧ c.2 = m) ∧ ∀ c ∈ cs, memB c.1 c.2 I → m ≤ c.2 := by
  induction cs generalizing m with
  | nil => cases h
  | cons c cs ih =>
    simp only [bestln] at h
    by_cases hc : memB c.1 c.2 I
    · rw [if_pos hc] at h
      rcases hbest : bestln I cs with _ | m' <;> simp only [hbest] at h
      · injection h with h1
        subst h1
        refine ⟨⟨c, by simp, hc, rfl⟩, ?_⟩
        intro d hd hdm
        rcases List.mem_cons.mp hd with rfl | hd
        · exact le_refl _
        · exact absurd hdm ((bestln_none_iff I cs).mp hbest d hd)
      · obtain ⟨⟨d0, hd0, hd0m, hd0e⟩, hmin⟩ := ih m' hbest
        split at h
        · injection h with h1
          subst h1
          rename_i hlt
          refine ⟨⟨d0, by simp [hd0], hd0m, hd0e⟩, ?_⟩
          intro d hd hdm
          rcases List.mem_cons.mp hd with rfl | hd
          · exact le_of_lt hlt
          · exact hmin d hd hdm
        · injection h with h1
          subst h1
          rename_i hnlt
          push_neg at hnlt
          refine ⟨⟨c, by simp, hc, rfl⟩, ?_⟩
          intro d hd hdm
          rcases List.mem_cons.mp hd with rfl | hd
          · exact le_refl _
          · exact le_trans hnlt (hmin d hd hdm)
    · rw [if_neg hc] at h
      obtain ⟨⟨d0, hd0, hd0m, hd0e⟩, hmin⟩ := ih m h
      refine ⟨⟨d0, by simp [hd0], hd0m, hd0e⟩, ?_⟩
      intro d hd hdm
      rcases List.mem_cons.mp hd with rfl | hd
      · exact absurd hdm hc
      · exact hmin d hd hdm

theorem bestln_eq_some_of (I : Interval) (cs : List (Bool × ℚ)) (m : ℚ)
    (hmem : ∃ c ∈ cs, memB c.1 c.2 I ∧ c.2 = m)
    (hmin : ∀ c ∈ cs, memB c.1 c.2 I → m ≤ c.2) : bestln I cs = some m := by
  rcases hbest : bestln I cs with _ | m'
  · obtain ⟨c, hc, hcm, -⟩ := hmem
    exact absurd hcm ((bestln_none_iff I cs).mp hbest c hc)
  · obtain ⟨⟨d0, hd0, hd0m, hd0e⟩, hmin'⟩ := bestln_some_spec I cs m' hbest
    obtain ⟨c, hc, hcm, hce⟩ := hmem
    have h1 : m' ≤ m := hce ▸ hmin' c hc hcm
    have h2 : m ≤ m' := hd0e ▸ hmin d0 hd0 hd0m
    rw [le_antisymm h1 h2]

theorem bestln_congr (I : Interval) (cs cs' : List (Bool × ℚ))
    (h : ∀ c, c ∈ cs ↔ c ∈ cs') : bestln I cs = bestln I cs' := by
  rcases hbest : bestln I cs with _ | m
  · symm
    rw [bestln_none_iff]
    intro c hc
    exact (bestln_none_iff I cs).mp hbest c ((h c).mpr hc)
  · symm
    obtain ⟨⟨c, hc, hcm, hce⟩, hmin⟩ := bestln_some_spec I cs m hbest
    exact bestln_eq_some_of I cs' m ⟨c, (h c).mp hc, hcm, hce⟩
      (fun d hd hdm => hmin d ((h d).mpr hd) hdm)

theorem memB_ge_min (s : Bool) (t : ℚ) (I : Interval) (h : memB s t I) : I.min ≤ t := by
  cases s
  · simp only [memB] at h
    simpa using h.1
  · simp only [memB] at h
    simp at h
    exact le_of_lt h.1

theorem memB_le_max (s : Bool) (t : ℚ) (I : Interval) (h : memB s t I) : t ≤ I.max := by
  cases s
  · simp only [memB] at h
    simpa using h.2
  · simp only [memB] at h
    simp at h
    exact le_of_lt h.2

theorem memB_narrow (s : Bool) (t : ℚ) (I : Interval) (m1 : ℚ) (h : memB s t I)
    (hlt : t < m1) : memB s t (Interval.with_bounds I.min m1) := by
  cases s <;> simp only [memB, Interval.with_bounds] at h ⊢ <;> simp at h ⊢
  · exact ⟨h.1, le_of_lt hlt⟩
  · exact ⟨h.1, hlt⟩

theorem memB_narrow_le (s : Bool) (t : ℚ) (I : Interval) (m1 : ℚ)
    (h : memB s t (Interval.with_bounds I.min m1)) : t ≤ m1 := by
  cases s <;> simp only [memB, Interval.with_bounds] at h <;> simp at h
  · exact h.2
  · exact le_of_lt h.2

theorem memB_widen (s : Bool) (t : ℚ) (I : Interval) (m1 : ℚ)
    (h : memB s t (Interval.with_bounds I.min m1)) (hm : m1 ≤ I.max) : memB s t I := by
  cases s <;> simp only [memB, Interval.with_bounds] at h ⊢ <;> simp at h ⊢
  · exact ⟨h.1, le_trans h.2 hm⟩
  · exact ⟨h.1, lt_of_lt_of_le h.2 hm⟩

/-- Splitting a candidate list mirrors the traversal order of `BVHNode::hit`
and `HittableList::hit`: first find the best of the first part on the full
interval, then the best of the second part on the interval narrowed to the
first best. -/
theorem bestln_append (I : Interval) (cs ds : List (Bool × ℚ)) :
    bestln I (cs ++ ds) =
      match bestln I cs with
      | none => bestln I ds
      | some m1 =>
        match bestln (Interval.with_bounds I.min m1) ds with
        | none => some m1
        | some m2 => some m2 := by
  rcases hcs : bestln I cs with _ | m1
  · rcases hds : bestln I ds with _ | m
    · simp only [hcs, hds]
      rw [bestln_none_iff]
      intro c hc
      rcases List.mem_append.mp hc with h | h
      · exact (bestln_none_iff I cs).mp hcs c h
      · exact (bestln_none_iff I ds).mp hds c h
    · simp only [hcs, hds]
      obtain ⟨⟨d0, hd0, hd0m, hd0e⟩, hmin⟩ := bestln_some_spec I ds m hds
      refine bestln_eq_some_of I (cs ++ ds) m
        ⟨d0, List.mem_append.mpr (Or.inr hd0), hd0m, hd0e⟩ ?_
      intro c hc hcm
      rcases List.mem_append.mp hc with h | h
      · exact absurd hcm ((bestln_none_iff I cs).mp hcs c h)
      · exact hmin c h hcm
  · obtain ⟨⟨c0, hc0, hc0m, hc0e⟩, hmin1⟩ := bestln_some_spec I cs m1 hcs
    have hm1max : m1 ≤ I.max := hc0e ▸ memB_le_max _ _ _ hc0m
    rcases hds : bestln (Interval.with_bounds I.min m1) ds with _ | m2
    · simp only [hcs, hds]
      refine bestln_eq_some_of I (cs ++ ds) m1
        ⟨c0, List.mem_append.mpr (Or.inl hc0), hc0m, hc0e⟩ ?_
      intro c hc hcm
      rcases List.mem_append.mp hc with h | h
      · exact hmin1 c h hcm
      · by_contra hlt
        push_neg at hlt
        exact ((bestln_none_iff _ ds).mp hds c h) (memB_narrow _ _ _ _ hcm hlt)
    · simp only [hcs, hds]
      obtain ⟨⟨d0, hd0, hd0m, hd0e⟩, hmin2⟩ := bestln_some_spec _ ds m2 hds
      have hm2m1 : m2 ≤ m1 := hd0e ▸ memB_narrow_le _ _ _ _ hd0m
      refine bestln_eq_some_of I (cs ++ ds) m2
        ⟨d0, List.mem_append.mpr (Or.inr hd0), memB_widen _ _ _ _ hd0m hm1max, hd0e⟩ ?_
      intro c hc hcm
      rcases List.mem_append.mp hc with h | h
      · exact le_trans hm2m1 (hmin1 c h hcm)
      · by_cases hlt : c.2 < m1
        · exact hmin2 c h (memB_narrow _ _ _ _ hcm hlt)
        · push_neg at hlt
          exact le_trans hm2m1 hlt

/-- One leaf's candidates, tagged with its membership style. -/
def leafCands (m : LeafModel) (r : Ray) : List (Bool × ℚ) :=
  (m.cands r).map (fun t => (m.strict, t))

/-- All candidates of a list of leaves under a model assignment. -/
def allCands (M : Leaf → LeafModel) (r : Ray) (ls : List Leaf) : List (Bool × ℚ) :=
  ls.flatMap (fun L => leafCands (M L) r)

theorem minMem_eq_bestln (strict : Bool) (I : Interval) (ts : List ℚ) :
    minMem strict I ts = bestln I (ts.map (fun t => (strict, t))) := by
  induction ts with
  | nil => rfl
  | cons t ts ih => simp only [minMem, bestln, List.map_cons, ih]

/-- The linear scan of `HittableList::hit` computes exactly the best
candidate of the processed leaves inside the current interval. -/
theorem scanAux_model (M : Leaf → LeafModel) (r : Ray) (lo : ℚ) :
    ∀ ls : List Leaf, (∀ L ∈ ls, Matches L (M L)) →
      ∀ (flag : Bool) (closest : ℚ) (temp rec : HitRecord),
        (match bestln (Interval.with_bounds lo closest) (allCands M r ls) with
          | none => scanAux r lo ls (flag, closest, temp, rec) = (flag, closest, temp, rec)
          | some m => ∃ rec', scanAux r lo ls (flag, closest, temp, rec) = (true, m, rec', rec') ∧
              rec'.t = m) := by
  intro ls
  induction ls with
  | nil =>
    intro hM flag closest temp rec
    simp [allCands, bestln, scanAux]
  | cons L tl ih =>
    intro hM flag closest temp rec
    have hL : Matches L (M L) := hM L (by simp)
    have htl : ∀ L' ∈ tl, Matches L' (M L') := fun L' h => hM L' (by simp [h])
    have happ : allCands M r (L :: tl) = leafCands (M L) r ++ allCands M r tl := by
      simp [allCands]
    rw [happ, bestln_append]
    rw [show (Interval.with_bounds lo closest).min = lo from rfl]
    simp only [scanAux, hL.hit_eq r (Interval.with_bounds lo closest) temp, LeafModel.runHit,
      minMem_eq_bestln]
    rcases hbL : bestln (Interval.with_bounds lo closest) (leafCands (M L) r) with _ | m1
    · rw [show bestln (Interval.with_bounds lo closest) ((M L).cands r |>.map
        (fun t => ((M L).strict, t))) = none from hbL]
      exact ih htl flag closest temp rec
    · have hm1mem : m1 ∈ (M L).cands r := by
        obtain ⟨⟨c, hc, -, hce⟩, -⟩ := bestln_some_spec _ _ _ hbL
        obtain ⟨t, ht, hte⟩ := List.mem_map.mp hc
        rw [← hce, ← hte]
        exact ht
      have hrt : ((M L).recAt r m1).t = m1 := hL.recAt_t r m1 hm1mem
      rw [show bestln (Interval.with_bounds lo closest) ((M L).cands r |>.map
        (fun t => ((M L).strict, t))) = some m1 from hbL]
      simp only [hrt]
      have hih := ih htl true m1 ((M L).recAt r m1) ((M L).recAt r m1)
      rcases hb2 : bestln (Interval.with_bounds lo m1) (allCands M r tl) with _ | m2 <;>
        simp only [hb2] at hih ⊢
      · exact ⟨(M L).recAt r m1, hih, hrt⟩
      · exact hih

/-- `HittableList::hit` returns the best candidate over all its objects in
the query interval: the hit flag is the existence of an in-interval
candidate, and the recorded `t` is the smallest one. -/
theorem list_hit_model (M : Leaf → LeafModel) (ls : List Leaf)
    (hM : ∀ L ∈ ls, Matches L (M L)) (r : Ray) (I : Interval) (rec : HitRecord) :
    match bestln I (allCands M r ls) with
    | none => HittableList.hit ls r I rec = (false, rec)
    | some m => ∃ rec', HittableList.hit ls r I rec = (true, rec') ∧ rec'.t = m := by
  have h := scanAux_model M r I.min ls hM false I.max HitRecord.new rec
  have heta : Interval.with_bounds I.min I.max = I := rfl
  rw [heta] at h
  rcases hb : bestln I (allCands M r ls) with _ | m <;> simp only [hb] at h ⊢
  · simp only [HittableList.hit, h]
  · obtain ⟨rec', hsc, hrt⟩ := h
    exact ⟨rec', by simp only [HittableList.hit, hsc], hrt⟩

/-- One slab axis is monotone: widening the slab and the candidate interval
turns a successful clip into a successful clip of a wider interval. -/
theorem slabClip_mono (ax ax' : Interval) (o d : ℚ) (cur cur' : Interval)
    (h1 : ax'.min ≤ ax.min) (h2 : ax.max ≤ ax'.max)
    (hwf : ax.min ≤ ax.max)
    (hc1 : cur'.min ≤ cur.min) (hc2 : cur.max ≤ cur'.max)
    (nxt : Interval) (h : slabClip ax o d cur = some nxt) :
    ∃ nxt', slabClip ax' o d cur' = some nxt' ∧ nxt'.min ≤ nxt.min ∧ nxt.max ≤ nxt'.max := by
  unfold slabClip at h ⊢
  by_cases hd : d = 0
  · rw [if_pos hd] at h ⊢
    split at h
    · rename_i hin
      injection h with hnxt
      subst hnxt
      rw [if_pos ⟨lt_of_le_of_lt h1 hin.1, lt_of_lt_of_le hin.2 h2⟩]
      exact ⟨cur', rfl, hc1, hc2⟩
    · cases h
  · rw [if_neg hd] at h ⊢
    injection h with hnxt
    subst hnxt
    refine ⟨_, rfl, ?_, ?_⟩ <;>
      simp only [Interval.intersect, Interval.with_orderless_bounds] <;>
      rcases lt_or_gt_of_ne hd with hneg | hpos
    · have hinv : 1 / d < 0 := one_div_neg.mpr hneg
      have k2 : (ax'.max - o) * (1 / d) ≤ (ax.max - o) * (1 / d) :=
        mul_le_mul_of_nonpos_right (sub_le_sub_right h2 o) (le_of_lt hinv)
      have k3 : (ax.max - o) * (1 / d) ≤ (ax.min - o) * (1 / d) :=
        mul_le_mul_of_nonpos_right (sub_le_sub_right hwf o) (le_of_lt hinv)
      apply max_le_max hc1
      rw [le_min_iff]
      exact ⟨le_trans (min_le_right _ _) (le_trans k2 k3), le_trans (min_le_right _ _) k2⟩
    · have hinv : 0 < 1 / d := one_div_pos.mpr hpos
      have k1 : (ax'.min - o) * (1 / d) ≤ (ax.min - o) * (1 / d) :=
        mul_le_mul_of_nonneg_right (sub_le_sub_right h1 o) (le_of_lt hinv)
      have k3 : (ax.min - o) * (1 / d) ≤ (ax.max - o) * (1 / d) :=
        mul_le_mul_of_nonneg_right (sub_le_sub_right hwf o) (le_of_lt hinv)
      apply max_le_max hc1
      rw [le_min_iff]
      exact ⟨le_trans (min_le_left _ _) k1, le_trans (min_le_left _ _) (le_trans k1 k3)⟩
    · have hinv : 1 / d < 0 := one_div_neg.mpr hneg
      have k1 : (ax.min - o) * (1 / d) ≤ (ax'.min - o) * (1 / d) :=
        mul_le_mul_of_nonpos_right (sub_le_sub_right h1 o) (le_of_lt hinv)
      have k3 : (ax.max - o) * (1 / d) ≤ (ax.min - o) * (1 / d) :=
        mul_le_mul_of_nonpos_right (sub_le_sub_right hwf o) (le_of_lt hinv)
      apply min_le_min hc2
      rw [max_le_iff]
      exact ⟨le_trans k1 (le_max_left _ _), le_trans (le_trans k3 k1) (le_max_left _ _)⟩
    · have hinv : 0 < 1 / d := one_div_pos.mpr hpos
      have k2 : (ax.max - o) * (1 / d) ≤ (ax'.max - o) * (1 / d) :=
        mul_le_mul_of_nonneg_right (sub_le_sub_right h2 o) (le_of_lt hinv)
      have k3 : (ax.min - o) * (1 / d) ≤ (ax.max - o) * (1 / d) :=
        mul_le_mul_of_nonneg_right (sub_le_sub_right hwf o) (le_of_lt hinv)
      apply min_le_min hc2
      rw [max_le_iff]
      exact ⟨le_trans (le_trans k3 k2) (le_max_right _ _), le_trans k2 (le_max_right _ _)⟩

/-- Pointwise widening of interval bounds. -/
def intervalLe (i j : Interval) : Prop := j.min ≤ i.min ∧ i.max ≤ j.max

/-- Per-axis containment of boxes. -/
def boxLe (a b : AABB) : Prop := intervalLe a.x b.x ∧ intervalLe a.y b.y ∧ intervalLe a.z b.z

theorem slabLoop_mono (deg deg' : Bool) :
    ∀ {axes axes' : List (Interval × ℚ × ℚ)},
      List.Forall₂
        (fun a a' => a'.1.min ≤ a.1.min ∧ a.1.max ≤ a'.1.max ∧ a.1.min ≤ a.1.max ∧ a.2 = a'.2)
        axes axes' →
      ∀ cur cur' : Interval, cur'.min ≤ cur.min → cur.max ≤ cur'.max →
        slabLoop deg axes cur = some true → slabLoop deg' axes' cur' = some true := by
  intro axes axes' hf
  induction hf with
  | nil => intro cur cur' _ _ _; rfl
  | cons ha hf ih =>
    rename_i a a' as as'
    intro cur cur' hc1 hc2 h
    obtain ⟨ax, o, d⟩ := a
    obtain ⟨ax', o2, d2⟩ := a'
    obtain ⟨k1, k2, k3, k4⟩ := ha
    injection k4 with ho hd
    subst ho
    subst hd
    simp only [slabLoop] at h ⊢
    rcases hclip : slabClip ax o d cur with _ | nxt
    · simp only [hclip] at h
      split at h <;> simp at h
    · simp only [hclip] at h
      by_cases hemp : nxt.max ≤ nxt.min
      · rw [if_pos hemp] at h
        split at h <;> simp at h
      · rw [if_neg hemp] at h
        obtain ⟨nxt', hclip', hm1, hm2⟩ :=
          slabClip_mono ax ax' o d cur cur' k1 k2 k3 hc1 hc2 nxt hclip
        simp only [hclip']
        have hemp' : ¬ nxt'.max ≤ nxt'.min := by
          push_neg at hemp ⊢
          exact lt_of_le_of_lt hm1 (lt_of_lt_of_le hemp hm2)
        rw [if_neg hemp']
        exact ih nxt nxt' hm1 hm2 h

/-- The slab test is monotone: a hit of a contained box on a contained
interval is a hit of the wider box on the wider interval. -/
theorem aabb_hit_mono (b b' : AABB) (r : Ray) (I I' : Interval)
    (hle : boxLe b b')
    (hwx : b.x.min ≤ b.x.max) (hwy : b.y.min ≤ b.y.max) (hwz : b.z.min ≤ b.z.max)
    (hI1 : I'.min ≤ I.min) (hI2 : I.max ≤ I'.max)
    (h : AABB.hit b r I = some true) : AABB.hit b' r I' = some true := by
  unfold AABB.hit at h ⊢
  refine slabLoop_mono _ _ ?_ I I' hI1 hI2 h
  exact List.Forall₂.cons ⟨hle.1.1, hle.1.2, hwx, rfl⟩
    (List.Forall₂.cons ⟨hle.2.1.1, hle.2.1.2, hwy, rfl⟩
      (List.Forall₂.cons ⟨hle.2.2.1, hle.2.2.2, hwz, rfl⟩ List.Forall₂.nil))

theorem slabLoop_isSome (axes : List (Interval × ℚ × ℚ)) :
    ∀ cur : Interval, ∃ res : Bool, slabLoop false axes cur = some res := by
  induction axes with
  | nil => intro cur; exact ⟨true, rfl⟩
  | cons hd tl ih =>
    intro cur
    obtain ⟨ax, o, d⟩ := hd
    simp only [slabLoop]
    rcases hclip : slabClip ax o d cur with _ | nxt
    · exact ⟨false, rfl⟩
    · by_cases hle : nxt.max ≤ nxt.min
      · exact ⟨false, by simp [hle]⟩
      · obtain ⟨res, hres⟩ := ih nxt
        exact ⟨res, by simp [hle, hres]⟩

/-- A nondegenerate box never reaches the diagnostic-and-abort branch of the
slab test. -/
theorem aabb_hit_isSome (b : AABB) (hx : 0 < b.x.size) (hy : 0 < b.y.size)
    (hz : 0 < b.z.size) (r : Ray) (I : Interval) :
    ∃ res : Bool, AABB.hit b r I = some res := by
  have hdeg : ¬ b.degenerate := by
    simp only [AABB.degenerate]
    push_neg
    exact ⟨hx, hy, hz⟩
  rw [AABB.hit, decide_eq_false hdeg]
  exact slabLoop_isSome _ _

/-- Invariant of a well-formed BVH over modelled leaves: every leaf is
faithfully modelled, and every node's stored box is nondegenerate and
contains the boxes of all leaves below it. -/
inductive GoodT (M : Leaf → LeafModel) : BVHTree → Prop where
  | leaf {L : Leaf} : Matches L (M L) → GoodT M (.leaf L)
  | node {lt rt : BVHTree} {box : AABB} :
      GoodT M lt → GoodT M rt →
      0 < box.x.size → 0 < box.y.size → 0 < box.z.size →
      (∀ L ∈ lt.leaves ++ rt.leaves, boxLe L.bbox box) →
      GoodT M (.node lt rt box)

theorem goodT_matches {M : Leaf → LeafModel} {T : BVHTree} (h : GoodT M T) :
    ∀ L ∈ T.leaves, Matches L (M L) := by
  induction h with
  | leaf hm =>
    intro L hL
    simp only [BVHTree.leaves, List.mem_singleton] at hL
    subst hL
    exact hm
  | node hl hr hx hy hz hsub ihl ihr =>
    intro L hL
    simp only [BVHTree.leaves] at hL
    rcases List.mem_append.mp hL with h | h
    · exact ihl L h
    · exact ihr L h

theorem minMem_eq_bestln_leaf (m : LeafModel) (r : Ray) (I : Interval) :
    minMem m.strict I (m.cands r) = bestln I (leafCands m r) :=
  minMem_eq_bestln m.strict I (m.cands r)

/-- `BVHNode::hit` on a well-formed tree returns the best candidate of the
tree's leaves inside the query interval (and never aborts). -/
theorem bvh_hit_model (M : Leaf → LeafModel) (r : Ray) :
    ∀ T : BVHTree, GoodT M T → ∀ (I : Interval) (rec : HitRecord),
      (match bestln I (allCands M r T.leaves) with
        | none => BVHNode.hit T r I rec = some (false, rec)
        | some m => ∃ rec', BVHNode.hit T r I rec = some (true, rec') ∧ rec'.t = m) := by
  intro T hT
  induction hT with
  | leaf hm =>
    rename_i L
    intro I rec
    have hall : allCands M r (BVHTree.leaf L).leaves = leafCands (M L) r := by
      simp [allCands, BVHTree.leaves]
    rw [hall]
    rcases hb : bestln I (leafCands (M L) r) with _ | m
    · simp only [BVHNode.hit, hm.hit_eq, LeafModel.runHit, minMem_eq_bestln_leaf, hb]
    · have hmmem : m ∈ (M L).cands r := by
        obtain ⟨⟨c, hc, -, hce⟩, -⟩ := bestln_some_spec _ _ _ hb
        obtain ⟨t, ht, hte⟩ := List.mem_map.mp hc
        rw [← hce, ← hte]
        exact ht
      refine ⟨(M L).recAt r m, ?_, hm.recAt_t r m hmmem⟩
      simp only [BVHNode.hit, hm.hit_eq, LeafModel.runHit, minMem_eq_bestln_leaf, hb]
  | node hl hr hx hy hz hsub ihl ihr =>
    rename_i lt rt box
    intro I rec
    have hmatch : ∀ L ∈ lt.leaves ++ rt.leaves, Matches L (M L) := by
      intro L hL
      rcases List.mem_append.mp hL with h | h
      · exact goodT_matches hl L h
      · exact goodT_matches hr L h
    rcases hbres : AABB.hit box r I with _ | bres
    · obtain ⟨res, hres⟩ := aabb_hit_isSome box hx hy hz r I
      rw [hres] at hbres
      cases hbres
    · cases bres
      · -- box missed: no leaf can have a candidate in I
        have hnone : bestln I (allCands M r (BVHTree.node lt rt box).leaves) = none := by
          rw [bestln_none_iff]
          intro c hc hmem
          have hc' : c ∈ allCands M r (lt.leaves ++ rt.leaves) := by
            simpa [BVHTree.leaves] using hc
          obtain ⟨L, hLmem, hcin⟩ := List.mem_flatMap.mp hc'
          have hLm : Matches L (M L) := hmatch L hLmem
          have hsomeL : (minMem (M L).strict I ((M L).cands r)).isSome := by
            rw [minMem_eq_bestln_leaf]
            rcases hbb : bestln I (leafCands (M L) r) with _ | m
            · exact absurd hmem ((bestln_none_iff _ _).mp hbb c hcin)
            · simp
          have hbhit := hLm.bbox_hit r I hsomeL
          have hboxhit : AABB.hit box r I = some true := by
            refine aabb_hit_mono L.bbox box r I I (hsub L hLmem) ?_ ?_ ?_ (le_refl _)
              (le_refl _) hbhit
            · have := hLm.pos_x
              simp only [Interval.size] at this
              linarith
            · have := hLm.pos_y
              simp only [Interval.size] at this
              linarith
            · have := hLm.pos_z
              simp only [Interval.size] at this
              linarith
          rw [hboxhit] at hbres
          cases hbres
        rw [hnone]
        simp only [BVHNode.hit, hbres]
      · -- box hit: combine the children
        have hleq : (BVHTree.node lt rt box).leaves = lt.leaves ++ rt.leaves := rfl
        rw [hleq]
        have hallapp : allCands M r (lt.leaves ++ rt.leaves) =
            allCands M r lt.leaves ++ allCands M r rt.leaves := by
          simp [allCands]
        rw [hallapp, bestln_append]
        have ihl' := ihl I rec
        rcases hbl : bestln I (allCands M r lt.leaves) with _ | m1 <;>
          simp only [hbl] at ihl' ⊢
        · -- left misses with record untouched; right queried on the full interval
          have ihr' := ihr I rec
          rcases hbr : bestln I (allCands M r rt.leaves) with _ | m2 <;>
            simp only [hbr] at ihr' ⊢
          · simp only [BVHNode.hit, hbres, ihl']
            have heta : Interval.with_bounds I.min I.max = I := rfl
            simp only [Bool.false_eq_true, if_false, heta, ihr', Bool.or_self]
          · obtain ⟨rec', hrt, hrt2⟩ := ihr'
            refine ⟨rec', ?_, hrt2⟩
            simp only [BVHNode.hit, hbres, ihl']
            have heta : Interval.with_bounds I.min I.max = I := rfl
            simp only [Bool.false_eq_true, if_false, heta, hrt, Bool.false_or]
        · -- left hits at m1; right queried on the narrowed interval
          obtain ⟨rec1, hlt, hlt2⟩ := ihl'
          have ihr' := ihr (Interval.with_bounds I.min m1) rec1
          rcases hbr : bestln (Interval.with_bounds I.min m1) (allCands M r rt.leaves) with
              _ | m2 <;> simp only [hbr] at ihr' ⊢
          · refine ⟨rec1, ?_, hlt2⟩
            simp only [BVHNode.hit, hbres, hlt, if_true, hlt2]
            simp only [ihr', Bool.or_false]
          · obtain ⟨rec2, hrt, hrt2⟩ := ihr'
            refine ⟨rec2, ?_, hrt2⟩
            simp only [BVHNode.hit, hbres, hlt, if_true, hlt2]
            simp only [hrt, Bool.or_self]

theorem intervalLe_refl (i : Interval) : intervalLe i i := ⟨le_refl _, le_refl _⟩

theorem intervalLe_trans {i j k : Interval} (h1 : intervalLe i j) (h2 : intervalLe j k) :
    intervalLe i k := ⟨le_trans h2.1 h1.1, le_trans h1.2 h2.2⟩

theorem boxLe_refl (a : AABB) : boxLe a a :=
  ⟨intervalLe_refl _, intervalLe_refl _, intervalLe_refl _⟩

theorem boxLe_trans {a b c : AABB} (h1 : boxLe a b) (h2 : boxLe b c) : boxLe a c :=
  ⟨intervalLe_trans h1.1 h2.1, intervalLe_trans h1.2.1 h2.2.1, intervalLe_trans h1.2.2 h2.2.2⟩

theorem intervalLe_union_left (i j : Interval) : intervalLe i (i.union j) :=
  ⟨min_le_left _ _, le_max_left _ _⟩

theorem intervalLe_union_right (i j : Interval) : intervalLe j (i.union j) :=
  ⟨min_le_right _ _, le_max_right _ _⟩

theorem boxLe_union_left (a b : AABB) : boxLe a (a.union b) :=
  ⟨intervalLe_union_left _ _, intervalLe_union_left _ _, intervalLe_union_left _ _⟩

theorem boxLe_union_right (a b : AABB) : boxLe b (a.union b) :=
  ⟨intervalLe_union_right _ _, intervalLe_union_right _ _, intervalLe_union_right _ _⟩

theorem intervalLe_size_le {i j : Interval} (h : intervalLe i j) : i.size ≤ j.size := by
  simp only [Interval.size]
  have h1 := h.1
  have h2 := h.2
  linarith

theorem boxLe_foldl_union (ls : List Leaf) :
    ∀ acc : AABB, boxLe acc (ls.foldl (fun acc L => acc.union L.bbox) acc) := by
  induction ls with
  | nil => intro acc; exact boxLe_refl acc
  | cons l ls ih =>
    intro acc
    exact boxLe_trans (boxLe_union_left _ _) (ih _)

theorem boxLe_foldl_union_mem (ls : List Leaf) :
    ∀ (acc : AABB), ∀ L ∈ ls, boxLe L.bbox (ls.foldl (fun acc L => acc.union L.bbox) acc) := by
  induction ls with
  | nil => intro acc L h; cases h
  | cons l ls ih =>
    intro acc L h
    rcases List.mem_cons.mp h with rfl | h
    · exact boxLe_trans (boxLe_union_right _ _) (boxLe_foldl_union ls _)
    · exact ih _ L h

/-- Every member's box is inside the accumulated box of the list. -/
theorem unionBoxes_mem (ls : List Leaf) (L : Leaf) (h : L ∈ ls) :
    boxLe L.bbox (unionBoxes ls) := by
  cases ls with
  | nil => cases h
  | cons l ls =>
    rcases List.mem_cons.mp h with rfl | h
    · exact boxLe_foldl_union ls _
    · exact boxLe_foldl_union_mem ls _ L h

/-- The leaves of a built BVH are exactly the members of the input list
(up to multiplicity: a singleton input is duplicated into both children). -/
theorem buildBVH_leaves_mem :
    ∀ (n : ℕ) (ls : List Leaf), ls.length ≤ n → ls ≠ [] →
      ∀ L, (L ∈ (buildBVH ls).leaves ↔ L ∈ ls) := by
  intro n
  induction n with
  | zero =>
    intro ls hl hne
    cases ls with
    | nil => exact absurd rfl hne
    | cons a ls => simp at hl
  | succ n ih =>
    intro ls hl hne L
    match ls with
    | [a] => simp [buildBVH, BVHTree.leaves]
    | [a, b] => simp [buildBVH, BVHTree.leaves]
    | a :: b :: c :: rest =>
      rw [buildBVH]
      simp only [BVHTree.leaves]
      have hperm := List.mergeSort_perm (a :: b :: c :: rest)
        (boxCompareLe (unionBoxes (a :: b :: c :: rest)).longest_axis)
      have hslen := hperm.length_eq
      have hlen3 : 3 ≤ (a :: b :: c :: rest).length := by simp
      have htne : ((a :: b :: c :: rest).mergeSort
          (boxCompareLe (unionBoxes (a :: b :: c :: rest)).longest_axis)).take
            ((a :: b :: c :: rest).length / 2) ≠ [] := by
        intro hemp
        have := congrArg List.length hemp
        simp only [List.length_take, hslen, List.length_nil] at this
        omega
      have hdne : ((a :: b :: c :: rest).mergeSort
          (boxCompareLe (unionBoxes (a :: b :: c :: rest)).longest_axis)).drop
            ((a :: b :: c :: rest).length / 2) ≠ [] := by
        intro hemp
        have := congrArg List.length hemp
        simp only [List.length_drop, hslen, List.length_nil] at this
        omega
      have htlen : (((a :: b :: c :: rest).mergeSort
          (boxCompareLe (unionBoxes (a :: b :: c :: rest)).longest_axis)).take
            ((a :: b :: c :: rest).length / 2)).length ≤ n := by
        simp only [List.length_take, hslen]
        simp only [List.length_cons] at hl ⊢
        omega
      have hdlen : (((a :: b :: c :: rest).mergeSort
          (boxCompareLe (unionBoxes (a :: b :: c :: rest)).longest_axis)).drop
            ((a :: b :: c :: rest).length / 2)).length ≤ n := by
        simp only [List.length_drop, hslen]
        simp only [List.length_cons] at hl ⊢
        omega
      rw [List.mem_append, ih _ htlen htne L, ih _ hdlen hdne L, ← List.mem_append,
        List.take_append_drop]
      exact hperm.mem_iff

/-- A BVH built from modelled leaves satisfies the traversal invariant. -/
theorem buildBVH_good (M : Leaf → LeafModel) :
    ∀ (n : ℕ) (ls : List Leaf), ls.length ≤ n → ls ≠ [] →
      (∀ L ∈ ls, Matches L (M L)) → GoodT M (buildBVH ls) := by
  intro n
  induction n with
  | zero =>
    intro ls hl hne
    cases ls with
    | nil => exact absurd rfl hne
    | cons a ls => simp at hl
  | succ n ih =>
    intro ls hl hne hM
    match ls with
    | [a] =>
      have ha := hM a (by simp)
      have hbox : unionBoxes [a] = a.bbox := rfl
      rw [buildBVH]
      refine GoodT.node (GoodT.leaf ha) (GoodT.leaf ha) ?_ ?_ ?_ ?_
      · rw [hbox]; exact ha.pos_x
      · rw [hbox]; exact ha.pos_y
      · rw [hbox]; exact ha.pos_z
      · intro L hL
        have : L = a := by
          simpa [BVHTree.leaves] using hL
        subst this
        rw [hbox]
        exact boxLe_refl _
    | [a, b] =>
      have ha := hM a (by simp)
      have hb := hM b (by simp)
      have hbox : unionBoxes [a, b] = a.bbox.union b.bbox := rfl
      rw [buildBVH]
      refine GoodT.node (GoodT.leaf ha) (GoodT.leaf hb) ?_ ?_ ?_ ?_
      · rw [hbox]
        exact lt_of_lt_of_le ha.pos_x
          (intervalLe_size_le (boxLe_union_left a.bbox b.bbox).1)
      · rw [hbox]
        exact lt_of_lt_of_le ha.pos_y
          (intervalLe_size_le (boxLe_union_left a.bbox b.bbox).2.1)
      · rw [hbox]
        exact lt_of_lt_of_le ha.pos_z
          (intervalLe_size_le (boxLe_union_left a.bbox b.bbox).2.2)
      · intro L hL
        rw [hbox]
        have : L = a ∨ L = b := by
          simpa [BVHTree.leaves] using hL
        rcases this with rfl | rfl
        · exact boxLe_union_left _ _
        · exact boxLe_union_right _ _
    | a :: b :: c :: rest =>
      rw [buildBVH]
      have hperm := List.mergeSort_perm (a :: b :: c :: rest)
        (boxCompareLe (unionBoxes (a :: b :: c :: rest)).longest_axis)
      have hslen := hperm.length_eq
      have htne : ((a :: b :: c :: rest).mergeSort
          (boxCompareLe (unionBoxes (a :: b :: c :: rest)).longest_axis)).take
            ((a :: b :: c :: rest).length / 2) ≠ [] := by
        intro hemp
        have := congrArg List.length hemp
        simp only [List.length_take, hslen, List.length_nil] at this
        simp only [List.length_cons] at this
        omega
      have hdne : ((a :: b :: c :: rest).mergeSort
          (boxCompareLe (unionBoxes (a :: b :: c :: rest)).longest_axis)).drop
            ((a :: b :: c :: rest).length / 2) ≠ [] := by
        intro hemp
        have := congrArg List.length hemp
        simp only [List.length_drop, hslen, List.length_nil] at this
        simp only [List.length_cons] at this
        omega
      have htlen : (((a :: b :: c :: rest).mergeSort
          (boxCompareLe (unionBoxes (a :: b :: c :: rest)).longest_axis)).take
            ((a :: b :: c :: rest).length / 2)).length ≤ n := by
        simp only [List.length_take, hslen]
        simp only [List.length_cons] at hl ⊢
        omega
      have hdlen : (((a :: b :: c :: rest).mergeSort
          (boxCompareLe (unionBoxes (a :: b :: c :: rest)).longest_axis)).drop
            ((a :: b :: c :: rest).length / 2)).length ≤ n := by
        simp only [List.length_drop, hslen]
        simp only [List.length_cons] at hl ⊢
        omega
      have hMt : ∀ L ∈ ((a :: b :: c :: rest).mergeSort
          (boxCompareLe (unionBoxes (a :: b :: c :: rest)).longest_axis)).take
            ((a :: b :: c :: rest).length / 2), Matches L (M L) := by
        intro L hL
        exact hM L (hperm.mem_iff.mp (List.mem_of_mem_take hL))
      have hMd : ∀ L ∈ ((a :: b :: c :: rest).mergeSort
          (boxCompareLe (unionBoxes (a :: b :: c :: rest)).longest_axis)).drop
            ((a :: b :: c :: rest).length / 2), Matches L (M L) := by
        intro L hL
        exact hM L (hperm.mem_iff.mp (List.mem_of_mem_drop hL))
      have hboxle : boxLe a.bbox (unionBoxes (a :: b :: c :: rest)) :=
        unionBoxes_mem _ a (by simp)
      have ha := hM a (by simp)
      refine GoodT.node (ih _ htlen htne hMt) (ih _ hdlen hdne hMd) ?_ ?_ ?_ ?_
      · exact lt_of_lt_of_le ha.pos_x (intervalLe_size_le hboxle.1)
      · exact lt_of_lt_of_le ha.pos_y (intervalLe_size_le hboxle.2.1)
      · exact lt_of_lt_of_le ha.pos_z (intervalLe_size_le hboxle.2.2)
      · intro L hL
        rcases List.mem_append.mp hL with h | h
        · exact unionBoxes_mem _ L (hperm.mem_iff.mp
            (List.mem_of_mem_take ((buildBVH_leaves_mem _ _ (le_refl _) htne L).mp h)))
        · exact unionBoxes_mem _ L (hperm.mem_iff.mp
            (List.mem_of_mem_drop ((buildBVH_leaves_mem _ _ (le_refl _) hdne L).mp h)))

/-- The standalone sphere of the C1 counterexample: static unit sphere at the
origin (`Sphere::new`), material handle 0.  Its constructed bounding box is
the cube `[-1,1]^3` (the padding of `new_two_points` leaves sides of size 2
unchanged). -/
def tangentSphere : Sphere := Sphere.new ⟨0, 0, 0⟩ 1 0

/-- The leaf wrapping `tangentSphere::hit` (the discriminant of the
counterexample ray is exactly 0, so `sq := fun _ => 0` is the exact square
root; the UV map is irrelevant) together with its constructed box. -/
def tangentLeaf : Leaf :=
  ⟨fun r I rec => tangentSphere.hit (fun _ => 0) (fun _ => (0, 0)) r I rec,
    tangentSphere.bounding_box⟩

/-- The grazing ray of the C1 counterexample: origin (-1, 0, -5), direction
(0, 0, 1).  It touches the sphere tangentially at (-1, 0, 0) with t = 5 while
running exactly inside the x = -1 face of the bounding box, where the
zero-direction slab test of `AABB::hit` requires `min < origin.x < max`
strictly and therefore fails. -/
def tangentRay : Ray := ⟨⟨-1, 0, -5⟩, ⟨0, 0, 1⟩, 0⟩

/-- Claim C1 counterexample: on the tangent ray the linear scan over the one
sphere leaf reports a hit (at t = 5), but the BVH built from the same leaf
set reports a miss, because the slab test of the node's box rejects a ray
lying exactly in a box face.  So BVH traversal does not return the same hit
flag as the linear scan for every ray and leaf set. -/
theorem bvh_scan_disagree_on_tangent :
    (HittableList.hit [tangentLeaf] tangentRay ⟨0, 10⟩ HitRecord.new).1 = true ∧
      BVHNode.hit (buildBVH [tangentLeaf]) tangentRay ⟨0, 10⟩ HitRecord.new =
        some (false, HitRecord.new) := by
  constructor
  · norm_num [HittableList.hit, scanAux, tangentLeaf, tangentRay, tangentSphere, Sphere.hit,
      Sphere.new, Sphere.get_center, Sphere.oc, Sphere.aCoeff, Sphere.hCoeff, Sphere.cCoeff,
      Sphere.disc, HitRecord.new, HitRecord.set_face_normal, Ray.at, Interval.with_bounds,
      Interval.surrounds, Vec3.zero]
  · rw [buildBVH]
    norm_num [BVHNode.hit, AABB.hit, slabLoop, slabClip, unionBoxes, tangentLeaf, tangentRay,
      tangentSphere, Sphere.new, AABB.new_two_points, AABB.pad_to_minimums, AABB.degenerate,
      Interval.with_orderless_bounds, Interval.size, Interval.expand, Vec3.zero]

/-- Claim C1 (amended to leaves with a deterministic candidate model): for
every ray, interval, initial record and nonempty leaf list whose members all
satisfy the `Matches` contract — hits are the minimum of a candidate set
within the query interval, a hit implies the leaf's own box passes the slab
test, and the box is nondegenerate — `BVHNode::hit` on the tree built by
`init_from_list` returns the same hit flag as the `HittableList::hit` linear
scan, never aborts, and on a hit records the same nearest t. -/
theorem bvh_equiv_scan (M : Leaf → LeafModel) (l0 : Leaf) (ls : List Leaf)
    (hM : ∀ L ∈ l0 :: ls, Matches L (M L)) (r : Ray) (I : Interval) (rec : HitRecord) :
    ∃ b rec1, BVHNode.hit (buildBVH (l0 :: ls)) r I rec = some (b, rec1) ∧
      b = (HittableList.hit (l0 :: ls) r I rec).1 ∧
      (b = true → rec1.t = (HittableList.hit (l0 :: ls) r I rec).2.t) := by
  have hgood : GoodT M (buildBVH (l0 :: ls)) :=
    buildBVH_good M (l0 :: ls).length (l0 :: ls) (le_refl _) (by simp) hM
  have hbvh := bvh_hit_model M r (buildBVH (l0 :: ls)) hgood I rec
  have hlist := list_hit_model M (l0 :: ls) hM r I rec
  have hmemiff : ∀ c, c ∈ allCands M r (buildBVH (l0 :: ls)).leaves ↔
      c ∈ allCands M r (l0 :: ls) := by
    intro c
    simp only [allCands, List.mem_flatMap]
    constructor
    · rintro ⟨L, hL, hc⟩
      exact ⟨L, (buildBVH_leaves_mem (l0 :: ls).length _ (le_refl _) (by simp) L).mp hL, hc⟩
    · rintro ⟨L, hL, hc⟩
      exact ⟨L, (buildBVH_leaves_mem (l0 :: ls).length _ (le_refl _) (by simp) L).mpr hL, hc⟩
  rw [bestln_congr I _ _ hmemiff] at hbvh
  rcases hb : bestln I (allCands M r (l0 :: ls)) with _ | m <;>
    simp only [hb] at hbvh hlist
  · refine ⟨false, rec, hbvh, by rw [hlist], ?_⟩
    intro h
    cases h
  · obtain ⟨rec1, hb1, ht1⟩ := hbvh
    obtain ⟨rec2, hb2, ht2⟩ := hlist
    exact ⟨true, rec1, hb1, by rw [hb2], fun _ => by rw [hb2]; exact ht1.trans ht2.symm⟩

/-- A leaf that never hits anything, with the unit box, and its (empty)
candidate model; used to instantiate the amended C1 theorem concretely. -/
def trivialLeaf : Leaf :=
  ⟨fun _ _ rec => (false, rec), ⟨⟨0, 1⟩, ⟨0, 1⟩, ⟨0, 1⟩⟩⟩

def trivialModel : LeafModel := ⟨fun _ => [], fun _ _ => HitRecord.new, false⟩

theorem matches_trivial : Matches trivialLeaf trivialModel := by
  refine ⟨?_, ?_, ?_, ?_, ?_, ?_⟩
  · intro r I rec
    rfl
  · intro r t ht
    simp [trivialModel] at ht
  · intro r I h
    simp [trivialModel, minMem] at h
  · norm_num [trivialLeaf, Interval.size]
  · norm_num [trivialLeaf, Interval.size]
  · norm_num [trivialLeaf, Interval.size]

theorem bvh_equiv_scan_witness :
    ∃ b rec1,
      BVHNode.hit (buildBVH [trivialLeaf]) ⟨⟨0, 0, 0⟩, ⟨0, 0, 1⟩, 0⟩ ⟨0, 10⟩ HitRecord.new =
          some (b, rec1) ∧
        b = (HittableList.hit [trivialLeaf] ⟨⟨0, 0, 0⟩, ⟨0, 0, 1⟩, 0⟩ ⟨0, 10⟩
              HitRecord.new).1 ∧
        (b = true →
          rec1.t = (HittableList.hit [trivialLeaf] ⟨⟨0, 0, 0⟩, ⟨0, 0, 1⟩, 0⟩ ⟨0, 10⟩
              HitRecord.new).2.t) :=
  bvh_equiv_scan (fun _ => trivialModel) trivialLeaf []
    (fun L hL => by
      have hLe : L = trivialLeaf := by simpa using hL
      subst hLe
      exact matches_trivial)
    ⟨⟨0, 0, 0⟩, ⟨0, 0, 1⟩, 0⟩ ⟨0, 10⟩ HitRecord.new

end C1

end RT
